import Mathlib

/-! # zazzy: a shallow embedding of `zazzy.go`

The Go program is a static-site build tool.  This development embeds the parts
of `zazzy.go` that its specification talks about and proves (or refutes) the
specification's statements about them.

Conventions of the embedding:

* a Go `string` is a `List Char` (`Str`); the inputs are taken to be valid
  UTF-8, so that searching for an ASCII delimiter, slicing at the positions
  found and comparing byte-wise agree with the same operations on code points;
* a Go `map[string]string` (`Vars`) is an association list read with
  `List.lookup`; a write replaces the binding of the key;
* a Go result `(string, error)` is `Outcome.ret out err`, a run-time panic
  (slice bounds, index out of range, nil dereference) is `Outcome.panic`;
* the world outside the program (files, sub-processes, the YAML decoder, the
  glob matcher, the Unicode case tables) is a record of functions.
-/

namespace Zazzy

/-! ## Strings -/

/-- A Go string, as its sequence of code points. -/
abbrev Str := List Char

/-- The Unicode case mappings used by `strings.ToLower`, `strings.ToUpper` and
`strings.ToTitle` (`unicode.ToLower`, `unicode.ToUpper`, `unicode.ToTitle`). -/
structure CaseTables where
  lower : Char → Char
  upper : Char → Char
  title : Char → Char

/-- The case tables restricted to ASCII letters (every other character is left
as it is); they agree with the Unicode tables on ASCII text. -/
def asciiCase : CaseTables :=
  ⟨Char.toLower, Char.toUpper, Char.toUpper⟩

/-- Model of `strings.ToLower`. -/
def toLower (ct : CaseTables) (s : Str) : Str := s.map ct.lower

/-- Model of `strings.ToUpper`. -/
def toUpper (ct : CaseTables) (s : Str) : Str := s.map ct.upper

/-- Model of `strings.ToTitle`: every letter mapped to its title case. -/
def toTitle (ct : CaseTables) (s : Str) : Str := s.map ct.title

/-- Model of `strings.HasPrefix`. -/
def hasPrefix (s pre : Str) : Bool := pre.isPrefixOf s

/-- Model of `strings.HasSuffix`. -/
def hasSuffix (s suf : Str) : Bool := suf.isSuffixOf s

/-- Model of `strings.TrimSuffix`. -/
def trimSuffix (s suf : Str) : Str :=
  if hasSuffix s suf then s.take (s.length - suf.length) else s

/-- Model of `strings.Index`: the position of the first occurrence of `sub` in
`s`, `none` standing for `-1`. -/
def index : Str → Str → Option Nat
  | [], sub => if sub = [] then some 0 else none
  | c :: cs, sub =>
    if sub.isPrefixOf (c :: cs) then some 0 else (index cs sub).map (· + 1)

/-- Model of `strings.Replace(s, old, new, -1)` for a one-character `old` and
`new`, the only use made of it. -/
def replaceAll (s : Str) (old new : Char) : Str :=
  s.map (fun c => if c = old then new else c)

/-- Model of `strings.TrimLeft(s, cutset)`. -/
def trimLeft (s cutset : Str) : Str := s.dropWhile (fun c => decide (c ∈ cutset))

/-- Model of `strings.TrimRight(s, cutset)`. -/
def trimRight (s cutset : Str) : Str :=
  (s.reverse.dropWhile (fun c => decide (c ∈ cutset))).reverse

/-- Model of `strings.Trim(s, cutset)`. -/
def trim (s cutset : Str) : Str := trimRight (trimLeft s cutset) cutset

/-- Model of `unicode.IsSpace`. -/
def isSpace (c : Char) : Bool :=
  let n := c.toNat
  n = 0x09 || n = 0x0A || n = 0x0B || n = 0x0C || n = 0x0D || n = 0x20 ||
  n = 0x85 || n = 0xA0 || n = 0x1680 || (0x2000 ≤ n && n ≤ 0x200A) ||
  n = 0x2028 || n = 0x2029 || n = 0x202F || n = 0x205F || n = 0x3000

/-- Worker of `fields`: `cur` is the field being read, reversed. -/
def fieldsAux : Str → Str → List Str
  | [], cur => if cur = [] then [] else [cur.reverse]
  | c :: cs, cur =>
    if isSpace c then
      (if cur = [] then fieldsAux cs [] else cur.reverse :: fieldsAux cs [])
    else fieldsAux cs (c :: cur)

/-- Model of `strings.Fields`: the maximal runs of non-space characters. -/
def fields (s : Str) : List Str := fieldsAux s []

/-! ## Paths (`path/filepath` on Unix) -/

/-- Worker of `filepathExt`: scans the reversed path from its end; `acc` is the
text already passed. -/
def extScan : Str → Str → Str
  | [], _ => []
  | c :: cs, acc =>
    if c = '/' then [] else if c = '.' then '.' :: acc else extScan cs (c :: acc)

/-- Model of `filepath.Ext`: the suffix beginning at the last dot of the last
path element, empty if there is no such dot. -/
def filepathExt (path : Str) : Str := extScan path.reverse []

/-- Model of `filepath.Base`: the last element of the path, trailing slashes
removed; `"."` for the empty path and `"/"` for a path of slashes. -/
def filepathBase (path : Str) : Str :=
  if path = [] then ['.'] else
    let p := (path.reverse.dropWhile (· = '/'))
    let b := (p.takeWhile (· ≠ '/')).reverse
    if b = [] then ['/'] else b

/-- Splits a path at every slash. -/
def splitSlash : Str → List Str
  | [] => [[]]
  | c :: cs =>
    match splitSlash cs with
    | [] => [[]]
    | x :: xs => if c = '/' then [] :: x :: xs else (c :: x) :: xs

/-- One step of `filepath.Clean` on the elements kept so far (last first):
empty elements and `.` are dropped, `..` removes the element before it, and
is kept when there is none to remove and the path is not rooted. -/
def cleanStep (rooted : Bool) (stack : List Str) (elem : Str) : List Str :=
  if elem = [] ∨ elem = ['.'] then stack
  else if elem = ['.', '.'] then
    match stack with
    | [] => if rooted then [] else [elem]
    | top :: rest => if top = ['.', '.'] then elem :: top :: rest else rest
  else elem :: stack

/-- Model of `filepath.Clean`. -/
def filepathClean (path : Str) : Str :=
  if path = [] then ['.'] else
    let rooted := hasPrefix path ['/']
    let kept := ((splitSlash path).foldl (cleanStep rooted) []).reverse
    let body := List.intercalate ['/'] kept
    if rooted then '/' :: body else if body = [] then ['.'] else body

/-- Model of `filepath.Join` for two elements: empty elements are ignored, the
others are joined with a slash and the result is cleaned. -/
def filepathJoin (a b : Str) : Str :=
  if a ≠ [] then filepathClean (a ++ '/' :: b)
  else if b ≠ [] then filepathClean b
  else []

/-! ## `renameExt` -/

/-- Embedding of `renameExt`. -/
def renameExt (path oldext newext : Str) : Str :=
  let oldext := if oldext = [] then filepathExt path else oldext
  if oldext = [] ∨ hasSuffix path oldext then trimSuffix path oldext ++ newext
  else path

/-! ## Variable maps -/

/-- A Go `map[string]string`; the binding of a key is the first pair with that
key. -/
abbrev Vars := List (Str × Str)

/-- The two-result read `v, ok := vars[k]`. -/
def vget (vars : Vars) (k : Str) : Option Str := List.lookup k vars

/-- The one-result read `vars[k]`: the empty string for an absent key. -/
def vat (vars : Vars) (k : Str) : Str := (vget vars k).getD []

/-- The write `vars[k] = x`. -/
def vset (vars : Vars) (k x : Str) : Vars :=
  (k, x) :: vars.filter (fun p => p.1 ≠ k)

/-- The loop `for k, x := range over { base[k] = x }`.  Go visits the entries
in an unspecified order; since the keys of a map are distinct the result does
not depend on it.  The pairs are written last to first, so that the first pair
of a key, which is its binding, is the one that stays. -/
def overlay (base over : Vars) : Vars :=
  over.foldr (fun p acc => vset acc p.1 p.2) base

/-- The entries of a map, one per key, as `range` visits them. -/
def ventries : Vars → Vars
  | [] => []
  | p :: rest => p :: (ventries rest).filter (fun q => q.1 ≠ p.1)

/-! ## Results and the outside world -/

/-- What a call of a Go function `func(...) (string, error)` does: it returns
its two results, or panics; `diverge` is the answer of a model that ran out
of fuel. -/
inductive Outcome where
  | ret (out : Str) (err : Option Str)
  | panic
  | diverge
  deriving DecidableEq, Repr

/-- The environment of the program, as seen during one run: the file system is
a snapshot (writes made by sub-processes while a page is rendered are not
followed). -/
structure World where
  /-- the Unicode case tables -/
  ct : CaseTables
  /-- the global `PUBDIR`, as left by `globals()` -/
  pubdir : Str
  /-- the value of `os.Args[0]` -/
  arg0 : Str
  /-- the value of `os.Environ()` -/
  environ : List Str
  /-- the call `ioutil.ReadFile`: the content, or the error -/
  readFile : Str → Except Str Str
  /-- the call `os.Open` followed by reading: `none` when the open fails -/
  openRead : Str → Option Str
  /-- the call `os.Stat`: whether the path is a directory, or the error -/
  stat : Str → Except Str Bool
  /-- the call `filepath.Glob`: the matching paths, or the error -/
  glob : Str → Except Str (List Str)
  /-- the call `glob.Compile`: the matcher of the pattern, `none` on error -/
  globCompile : Str → Option (Str → Bool)
  /-- the call `yaml.Unmarshal` into a fresh `Vars` -/
  yaml : Str → Except Str Vars
  /-- running a command with arguments and an environment (`exec.Cmd.Run`):
  its standard output, or the error -/
  exec : Str → List Str → List Str → Except Str Str
  /-- the builtin `renderFavicon`, which downloads from the network -/
  favicon : Vars → List Str → Outcome

/-- The constant `ZSDIR`. -/
def ZSDIR : Str := ".zazzy".toList

/-- The constant `DFTPUBDIR`. -/
def DFTPUBDIR : Str := ".pub".toList

/-! ## Reading lines (`bufio.Scanner` with `bufio.ScanLines`) -/

/-- The number of bytes of the UTF-8 encoding of a string. -/
def byteLen (s : Str) : Nat := (s.map Char.utf8Size).sum

/-- The pieces of a text between its newlines; the piece after the last
newline is there only when it is not empty. -/
def splitLines : Str → List Str
  | [] => []
  | c :: cs =>
    if c = '\n' then [] :: splitLines cs
    else match splitLines cs with
      | [] => [[c]]
      | l :: ls => (c :: l) :: ls

/-- The function `dropCR` of `bufio`: a final carriage return is removed. -/
def dropCR (l : Str) : Str :=
  if l.getLast? = some '\r' then l.dropLast else l

/-- The constant `bufio.MaxScanTokenSize`. -/
def maxScanTokenSize : Nat := 64 * 1024

/-- The tokens that `scanner.Scan()` delivers before it returns false, and
whether the scanner ended without error (`scanner.Err() == nil`): it stops
with `ErrTooLong` at a line that does not fit its buffer. -/
def scanTokens : List Str → List Str × Bool
  | [] => ([], true)
  | l :: ls =>
    if byteLen l < maxScanTokenSize then
      ((dropCR l) :: (scanTokens ls).1, (scanTokens ls).2)
    else ([], false)

/-- The lines a `bufio.Scanner` reads from a text. -/
def scanLines (content : Str) : List Str × Bool := scanTokens (splitLines content)

/-! ## `loadIgnore` -/

/-- The body of the scanning loop of `loadIgnore`: the trimmed line when it is
kept. -/
def ignoreEntry (w : World) (line : Str) : Option Str :=
  let entry := trim line [' ']
  if entry.length > 0 ∧ entry.take 1 ≠ ['#'] then
    match w.globCompile entry with
    | none => none
    | some _ => some entry
  else none

/-- Embedding of `loadIgnore`. -/
def loadIgnore (w : World) : List Str :=
  match w.openRead (filepathJoin ZSDIR ".ignore".toList) with
  | none => []
  | some content =>
    let lst := (scanLines content).1.filterMap (ignoreEntry w)
    if (filepathBase w.pubdir).head? ≠ some '.' ∧ ¬ hasPrefix w.pubdir ['.'] then
      lst ++ [trimRight w.pubdir ['/'] ++ ['*', '*']]
    else lst

/-! ## `appendSitemap` -/

/-- Embedding of `appendSitemap`, as a function on the state of the file
`sitemap.txt` of the publish directory (`none`: there is no such file).  The
publish directory is taken to exist and the write to succeed. -/
def appendSitemap (ct : CaseTables) (vars : Vars) (file : Option Str) : Option Str :=
  if toLower ct (vat vars "sitemaptype".toList) ≠ "txt".toList then file
  else if toLower ct (vat vars "sitemap".toList) ≠ "true".toList then file
  else
    let sitemapentry := filepathJoin (vat vars "hosturl".toList) (vat vars "url".toList)
    let content := file.getD []
    let scanned := scanLines content
    if scanned.1.any (fun l => toLower ct (trim l [' ']) = sitemapentry) then some content
    else if scanned.2 = false then some content
    else some (content ++ sitemapentry ++ ['\n'])

/-! ## `run` -/

/-- The environment `run` gives to the command. -/
def runEnv (w : World) (vars : Vars) : List Str :=
  ["ZS=".toList ++ w.arg0, "ZS_OUTDIR=".toList ++ w.pubdir] ++ w.environ ++
    (ventries vars).map (fun p => "ZS_".toList ++ toUpper w.ct p.1 ++ '=' :: p.2)

/-- Embedding of `run`. -/
def run (w : World) (vars : Vars) (cmd : Str) (args : List Str) : Outcome :=
  match w.exec cmd args (runEnv w vars) with
  | .error e => .ret [] (some e)
  | .ok out => .ret out none

/-! ## `getVars` -/

/-- The header delimiter. -/
def headerDelim : Str := ['\n', '-', '-', '-', '\n']

/-- The default variables of a document, the first five assignments of
`getVars`. -/
def defaultVars (w : World) (path : Str) : Vars :=
  let v : Vars := []
  let title := replaceAll (replaceAll path '_' ' ') '-' ' '
  let v := vset v "title".toList (toTitle w.ct title)
  let v := vset v "description".toList []
  let v := vset v "file".toList path
  let v := vset v "url".toList
    (path.take (path.length - (filepathExt path).length) ++ ".html".toList)
  let v := vset v "output".toList (filepathJoin w.pubdir (vat v "url".toList))
  v

/-- The variables of `getVars` before the header is read: the defaults, the
globals over them, and the default layout. -/
def baseVars (w : World) (path : Str) (globals : Vars) : Vars :=
  let v := overlay (defaultVars w path) globals
  match vget v "layout".toList with
  | none => vset v "layout".toList "layout.html".toList
  | some _ => v

/-- Embedding of `getVars`: the variables and the body, or the error. -/
def getVars (w : World) (path : Str) (globals : Vars) : Except Str (Vars × Str) :=
  match w.readFile path with
  | .error e => .error e
  | .ok s =>
    let v := baseVars w path globals
    match index s headerDelim with
    | none => .ok (v, s)
    | some sep =>
      let header := s.take sep
      let body := s.drop (sep + headerDelim.length)
      match w.yaml header with
      | .error e => .error e
      | .ok vars =>
        let v := overlay v vars
        let v := vset v "url".toList (trimLeft (vat v "url".toList) ['.', '/'])
        .ok (v, body)

/-! ## `render` -/

/-- The open delimiter of a macro. -/
def delimOpen : Str := ['{', '{']

/-- The close delimiter of a macro. -/
def delimClose : Str := ['}', '}']

/-- What `render` does with the result of a builtin, of a nested `render` or
of a plugin: the output is written when there is no error, an error is only
printed; in both cases the loop goes on.  A panic ends the program. -/
def afterCall (r : Vars × Outcome) (out : Str)
    (continue_ : Str → Vars → Vars × Outcome) : Vars × Outcome :=
  match r with
  | (vars, .ret res none) => continue_ (out ++ res) vars
  | (vars, .ret _ (some _)) => continue_ out vars
  | (vars, .panic) => (vars, .panic)
  | (vars, .diverge) => (vars, .diverge)

/-- The loop of `render`.  The arguments `rl` and `recur` are the builtin
`renderlist` and `render` itself at depth `deep + 1`; the number is the fuel of
the loop, `s` the text still to read, `out` the buffer.  The variables are
threaded through the loop because `renderlist` writes into the map it is
given; they are returned with the result. -/
def renderLoop (w : World) (rl : Vars → List Str → Vars × Outcome)
    (recur : Str → Vars → Vars × Outcome) (deep : Int) :
    Nat → Str → Str → Vars → Vars × Outcome
  | 0, _, _, vars => (vars, .diverge)
  | fuel + 1, s, out, vars =>
    match index s delimOpen with
    | none => (vars, .ret (out ++ s) none)
    | some from_ =>
      match index s delimClose with
      | none => (vars, .ret [] (some "close delim not found".toList))
      | some to_ =>
        let out := out ++ s.take from_
        -- the slice `s[from+len(delim_open) : to]` panics when its bounds are
        -- out of order
        if to_ < from_ + delimOpen.length then (vars, .panic) else
        let cmd := (s.take to_).drop (from_ + delimOpen.length)
        let s := s.drop (to_ + delimClose.length)
        match fields cmd with
        | [] => (vars, .panic) -- `m[0]`: index out of range
        | m0 :: margs =>
          let plugin : Vars × Outcome :=
            afterCall (vars, run w vars m0 margs) out (renderLoop w rl recur deep fuel s)
          let lookupVar : Vars × Outcome :=
            match vget vars m0 with
            | some v => renderLoop w rl recur deep fuel s (out ++ v) vars
            | none => plugin
          if m0 = "renderlist".toList then
            afterCall (rl vars margs) out (renderLoop w rl recur deep fuel s)
          else if m0 = "favicon".toList then
            afterCall (vars, w.favicon vars margs) out (renderLoop w rl recur deep fuel s)
          else if filepathExt m0 = ".html".toList ∨ filepathExt m0 = ".md".toList then
            match w.readFile (filepathJoin ZSDIR m0) with
            | .ok b =>
              if deep > 10 then (vars, .ret b none)
              else afterCall (recur b vars) out (renderLoop w rl recur deep fuel s)
            | .error _ => lookupVar -- `fallthrough`: the next test is not made
          else if margs.length + 1 = 1 then lookupVar
          else plugin

/-- The function `render` with `k` levels of nested calls allowed. -/
def renderAt (w : World) (rl : Vars → List Str → Vars × Outcome) :
    Nat → Str → Vars → Int → Vars × Outcome
  | 0, _, vars, _ => (vars, .diverge)
  | k + 1, s, vars, deep =>
    renderLoop w rl (fun b v => renderAt w rl k b v (deep + 1)) deep (s.length + 1) s [] vars

/-- Embedding of `render`, given the builtin `renderlist`: the variables as the
call leaves them, and the result.  A nested call is made only at a depth of at
most 10, with the depth one greater, so `11 - deep` levels are enough. -/
def render (w : World) (rl : Vars → List Str → Vars × Outcome)
    (s : Str) (vars : Vars) (deep : Int) : Vars × Outcome :=
  renderAt w rl ((11 - deep).toNat + 1) s vars deep

/-! ## `renderlist` -/

/-- Model of `sort.Sort(sort.Reverse(sort.StringSlice(xs)))`: the paths in
descending order. -/
def sortDescending (xs : List Str) : List Str :=
  xs.insertionSort (fun a b => b ≤ a)

/-- The inner loop of `renderlist` over the ignore list: its `continue` goes on
with the next pattern, so all it can do is panic, when the match is asked of a
pattern that did not compile (`g` is nil). -/
def ignoreLoopPanics (w : World) (ignorelist : List Str) : Bool :=
  ignorelist.any (fun e => (w.globCompile e).isNone)

/-- The loop of `renderlist` over the matching files; `rend` is `render`,
`result` the text built so far. -/
def renderItems (w : World) (rend : Str → Vars → Int → Vars × Outcome)
    (ignorelist : List Str) (itemlayout : Str) (vars : Vars) :
    List Str → Str → Outcome
  | [], result => .ret result none
  | path :: rest, result =>
    if (filepathBase path).head? = some '.' ∨ hasPrefix path ['.'] then
      renderItems w rend ignorelist itemlayout vars rest result
    else if ignoreLoopPanics w ignorelist then .panic
    else
      match w.stat path with
      | .error _ => renderItems w rend ignorelist itemlayout vars rest result
      | .ok true => renderItems w rend ignorelist itemlayout vars rest result
      | .ok false =>
        match getVars w path vars with
        | .error e => .ret [] (some e)
        | .ok (vitem, _) =>
          let vitem := vset vitem "file".toList path
          let vitem := vset vitem "url".toList
            (path.take (path.length - (filepathExt path).length) ++ ".html".toList)
          let vitem := vset vitem "output".toList
            (filepathJoin w.pubdir (vat vitem "url".toList))
          match (rend itemlayout vitem 1).2 with
          | .ret item none =>
            renderItems w rend ignorelist itemlayout vars rest (result ++ item)
          | .ret _ (some e) => .ret [] (some e)
          | .panic => .panic
          | .diverge => .diverge

/-- Embedding of `renderlist`, given `render`: the variables as the call leaves
them (the key `itemlayout` is written into the caller's map), and the result. -/
def renderlist (w : World) (rend : Str → Vars → Int → Vars × Outcome)
    (vars : Vars) (args : List Str) : Vars × Outcome :=
  match args with
  | [filelistpattern] =>
    match w.glob filelistpattern with
    | .error _ => (vars, .ret [] (some "bad pattern".toList))
    | .ok matchingfiles =>
      if matchingfiles.length = 0 then (vars, .ret [] (some "bad pattern".toList))
      else
        let matchingfiles := sortDescending matchingfiles
        let ignorelist := loadIgnore w
        let vars :=
          match vget vars "itemlayout".toList with
          | none => vset vars "itemlayout".toList (filepathJoin ZSDIR "itemlayout.html".toList)
          | some _ => vars
        let itemlayout :=
          match getVars w (vat vars "itemlayout".toList) vars with
          | .error _ => []
          | .ok (_, body) => body
        (vars, renderItems w rend ignorelist itemlayout vars matchingfiles [])
  | _ => (vars, .ret [] none)

/-- The program: `render` and `renderlist` call each other, the second calling
the first at depth 1 again, so the nesting of list items is not bounded by the
depth; `n` bounds it here. -/
def renderN (w : World) : Nat → Str → Vars → Int → Vars × Outcome
  | 0 => fun _ vars _ => (vars, .diverge)
  | n + 1 => render w (renderlist w (renderN w n))

/-- The builtin `renderlist` of the program, with list items nested at most `n`
deep. -/
def renderlistN (w : World) (n : Nat) : Vars → List Str → Vars × Outcome :=
  renderlist w (renderN w n)

/-! ## `build` and `buildAll` -/

/-- What a call of a Go function returning an `error` does: it returns nil, it
returns an error, or it panics. -/
inductive Status where
  | done
  | failed (err : Str)
  | crashed
  deriving DecidableEq, Repr

/-- The three pipelines `build` chooses from, called on a path with a nil
writer and the global variables: what each returns. -/
structure Builders where
  /-- the call `buildMarkdown(path, nil, vars)` -/
  markdown : Str → Status
  /-- the call `buildHTML(path, nil, vars)` -/
  html : Str → Status
  /-- the call `buildRaw(path, nil)` -/
  raw : Str → Status

/-- Embedding of `build`: the pipeline is chosen by the extension and its
error, if any, is logged and returned. -/
def build (b : Builders) (path : Str) : Status :=
  let ext := filepathExt path
  if ext = ".md".toList ∨ ext = ".mkd".toList then b.markdown path
  else if ext = ".html".toList ∨ ext = ".xml".toList then b.html path
  else b.raw path

/-- What `buildAll` does that can be seen from outside. -/
inductive Event where
  | prehook
  | posthook
  | mkdir (path : Str)
  | build (path : Str)
  deriving DecidableEq, Repr

/-- One call of the function given to `filepath.Walk`: the path, the error
argument, and the `IsDir()` and `ModTime()` of the file info (times are in
nanoseconds since the epoch). -/
structure WalkEntry where
  path : Str
  err : Option Str
  isDir : Bool
  modTime : Int

/-- The variables of `buildAll` that the walk function writes, and the events
so far, oldest first. -/
structure CycleState where
  modified : Bool
  events : List Event

/-- The loop of the walk function over the ignore list: `some true` when a
pattern matches, `none` when the match is asked of a pattern that did not
compile (a nil dereference). -/
def ignoreMatch (w : World) (path : Str) : List Str → Option Bool
  | [] => some false
  | ignoreentry :: rest =>
    match w.globCompile ignoreentry with
    | none => none
    | some g => if g path then some true else ignoreMatch w path rest

/-- Embedding of the function literal `buildAll` gives to `filepath.Walk`. -/
def walkFn (w : World) (b : Builders) (ignorelist : List Str) (lastModified : Int)
    (st : CycleState) (e : WalkEntry) : CycleState × Status :=
  if (filepathBase e.path).head? = some '.' ∨ hasPrefix e.path ['.'] then (st, .done)
  else
    match ignoreMatch w e.path ignorelist with
    | none => (st, .crashed)
    | some true => (st, .done)
    | some false =>
      if e.err.isSome then (st, .done)
      else if e.isDir then
        ({ st with events := st.events ++ [.mkdir (filepathJoin w.pubdir e.path)] }, .done)
      else if e.modTime > lastModified then
        let st : CycleState :=
          if st.modified = false then
            { modified := true, events := st.events ++ [.prehook] }
          else st
        ({ st with events := st.events ++ [.build e.path] }, build b e.path)
      else (st, .done)

/-- Model of `filepath.Walk` for a function that never returns `SkipDir`: the
function is called on the entries of the tree in walk order, and the walk ends
at the first call that does not return nil. -/
def walk (fn : CycleState → WalkEntry → CycleState × Status) :
    CycleState → List WalkEntry → CycleState × Status
  | st, [] => (st, .done)
  | st, e :: rest =>
    match fn st e with
    | (st, .done) => walk fn st rest
    | (st, r) => (st, r)

/-- One turn of the loop of `buildAll`: the events of the cycle and the value
of `modified` after it, or `none` when the program panics.  The error that
`filepath.Walk` returns is dropped, as in the source. -/
def buildCycle (w : World) (b : Builders) (ignorelist : List Str) (lastModified : Int)
    (modified : Bool) (entries : List WalkEntry) : Option (List Event × Bool) :=
  let st : CycleState := { modified := modified, events := [.mkdir w.pubdir] }
  match walk (walkFn w b ignorelist lastModified) st entries with
  | (_, .crashed) => none
  | (st, _) =>
    if st.modified then some (st.events ++ [.posthook], false)
    else some (st.events, st.modified)

/-- Embedding of `buildAll(false)`, after `globals()`: the events of its one
cycle.  The watermark starts at the epoch. -/
def buildAll (w : World) (b : Builders) (entries : List WalkEntry) : Option (List Event) :=
  (buildCycle w b (loadIgnore w) 0 false entries).map (·.1)

/-- What the loop of `buildAll(true)` finds in one cycle: the tree, what the
builds of the cycle return, and the clock read after the walk. -/
structure Snapshot where
  entries : List WalkEntry
  builders : Builders
  now : Int

/-- The loop of `buildAll(true)` over the first cycles, given what each finds:
the events of each cycle, up to a panic. -/
def watchCycles (w : World) (ignorelist : List Str) :
    Int → Bool → List Snapshot → List (List Event)
  | _, _, [] => []
  | lastModified, modified, c :: rest =>
    match buildCycle w c.builders ignorelist lastModified modified c.entries with
    | none => []
    | some (events, modified) => events :: watchCycles w ignorelist c.now modified rest

/-! ## `globals` -/

/-- Model of `strings.Split(s, sep)` for a one-character separator: the pieces
of the text between the separators, at least one. -/
def splitChar (sep : Char) : Str → List Str
  | [] => [[]]
  | c :: cs =>
    match splitChar sep cs with
    | [] => [[]]
    | x :: xs => if c = sep then [] :: x :: xs else (c :: x) :: xs

/-- The loop of `globals` over the entries of the environment; `none` when
`pair[1]` is read of an entry without `=` (index out of range). -/
def globalsLoop (ct : CaseTables) : List Str → Vars → Option Vars
  | [], vars => some vars
  | e :: rest, vars =>
    match splitChar '=' e with
    | [] => none
    | [p0] => if hasPrefix p0 "ZS_".toList then none else globalsLoop ct rest vars
    | p0 :: p1 :: _ =>
      if hasPrefix p0 "ZS_".toList then
        globalsLoop ct rest (vset vars (toLower ct (p0.drop 3)) p1)
      else globalsLoop ct rest vars

/-- Embedding of `globals`, given the environment and the value of `PUBDIR`
before the call: the variables and the value of `PUBDIR` after it, or `none`
when the call panics. -/
def globals (ct : CaseTables) (environ : List Str) (pubdir : Str) : Option (Vars × Str) :=
  match globalsLoop ct environ [] with
  | none => none
  | some vars =>
    let pubdir := if (vat vars "pubdir".toList).length ≠ 0 then vat vars "pubdir".toList else pubdir
    let vars :=
      if (vat vars "favicondir".toList).length = 0 then
        vset vars "favicondir".toList "/img/favicons".toList
      else vars
    some (vars, pubdir)

/-- The name of an entry of the environment: the text before its first `=`. -/
def envName (e : Str) : Str := e.takeWhile (· ≠ '=')

/-! ## Worlds used in the examples -/

/-- A world with no file, in which no command can be run; the glob matcher
knows literal patterns only and the header decoder finds no key. -/
def emptyWorld : World where
  ct := asciiCase
  pubdir := DFTPUBDIR
  arg0 := "zazzy".toList
  environ := []
  readFile := fun _ => .error "no such file or directory".toList
  openRead := fun _ => none
  stat := fun _ => .error "no such file or directory".toList
  glob := fun _ => .ok []
  globCompile := fun pat => some (fun path => path = pat)
  yaml := fun _ => .ok []
  exec := fun _ _ _ => .error "executable file not found in $PATH".toList
  favicon := fun _ _ => .ret [] none

/-- A builtin `renderlist` that renders nothing. -/
def noList : Vars → List Str → Vars × Outcome := fun v _ => (v, .ret [] none)

/-! ## Words of the specification -/

/-- The extension `renameExt` works with, in the words of the specification:
the one given, or the actual extension of the path when none is given. -/
def extensionUsed (path oldext : Str) : Str :=
  if oldext ≠ [] then oldext else filepathExt path

/-- The computed defaults of a document, in the words of the specification:
the title is the path with `_` and `-` replaced by spaces and every letter put
in capitals, the description is empty, the file is the path, the url is the
path with its extension replaced by `.html`, the output is the publish
directory joined with that url, and the layout is `layout.html`. -/
def specDefaults (w : World) (path : Str) : Vars :=
  [ ("title".toList, toTitle w.ct (replaceAll (replaceAll path '_' ' ') '-' ' ')),
    ("description".toList, []),
    ("file".toList, path),
    ("url".toList, path.take (path.length - (filepathExt path).length) ++ ".html".toList),
    ("output".toList, filepathJoin w.pubdir
      (path.take (path.length - (filepathExt path).length) ++ ".html".toList)),
    ("layout".toList, "layout.html".toList) ]

/-- The world of the test `TestVars`: the file `test.md` with a header of two
keys, and the file `bad.md` whose header `[` is no YAML document; the header
decoder knows these two headers. -/
def docWorld : World :=
  { emptyWorld with
    readFile := fun path =>
      if path = "test.md".toList then
        .ok "\nfoo: bar\ntitle: Hello, world!\n---\nSome content in markdown\n".toList
      else if path = "bad.md".toList then .ok "[\n---\nHello\n".toList
      else .error "no such file or directory".toList
    yaml := fun header =>
      if header = "\nfoo: bar\ntitle: Hello, world!".toList then
        .ok [("foo".toList, "bar".toList), ("title".toList, "Hello, world!".toList)]
      else if header = "[".toList then
        .error "yaml: line 1: did not find expected node content".toList
      else .ok [] }

/-- A world with two documents `a.md` and `b.md`, an item layout `<{{file}}>`, which writes
the path of the item between angle brackets, and an ignore file that lists
`a.md`. -/
def listWorld : World :=
  { emptyWorld with
    readFile := fun path =>
      if path = "a.md".toList then .ok "A".toList
      else if path = "b.md".toList then .ok "B".toList
      else if path = ".zazzy/itemlayout.html".toList then .ok "<\x7b\x7bfile\x7d\x7d>".toList
      else .error "no such file or directory".toList
    openRead := fun path =>
      if path = ".zazzy/.ignore".toList then some "a.md\n".toList else none
    stat := fun path =>
      if path = "a.md".toList ∨ path = "b.md".toList then .ok false
      else .error "no such file or directory".toList
    glob := fun pattern =>
      if pattern = "*.md".toList then .ok ["a.md".toList, "b.md".toList] else .ok [] }

/-- The world `listWorld` without ignore file and with `a.md` not readable:
`os.Stat` finds the file, reading it fails. -/
def unreadableWorld : World :=
  { listWorld with
    readFile := fun path =>
      if path = "a.md".toList then .error "open a.md: permission denied".toList
      else listWorld.readFile path
    openRead := fun _ => none }

/-- Pipelines in which the build of `a.md` fails and every other build
succeeds. -/
def failOnA : Builders where
  markdown := fun path =>
    if path = "a.md".toList then .failed "yaml: line 1: did not find expected node content".toList
    else .done
  html := fun _ => .done
  raw := fun _ => .done

/-- A tree with the two files `a.md` and `b.md`, both modified after the
epoch, as `filepath.Walk(".")` visits it. -/
def twoFiles : List WalkEntry :=
  [ { path := ".".toList, err := none, isDir := true, modTime := 1 },
    { path := "a.md".toList, err := none, isDir := false, modTime := 1 },
    { path := "b.md".toList, err := none, isDir := false, modTime := 1 } ]

/-- Variables that ask for a sitemap entry of the page `Index.html`. -/
def sitemapVars : Vars :=
  [ ("sitemaptype".toList, "txt".toList), ("sitemap".toList, "true".toList),
    ("url".toList, "Index.html".toList) ]

/-- The url of a document before its leading dots and slashes are removed, in
the words of the specification: the value of the header if the header sets
`url`, else that of the globals, else the path with its extension replaced by
`.html`. -/
def layeredUrl (path : Str) (G H : Vars) : Str :=
  match vget H "url".toList with
  | some u => u
  | none =>
    match vget G "url".toList with
    | some u => u
    | none => path.take (path.length - (filepathExt path).length) ++ ".html".toList

/-- The world of the second document of the test `TestVars`: the file `test.md`
whose header sets `url`. -/
def urlWorld : World :=
  { emptyWorld with
    readFile := fun path =>
      if path = "test.md".toList then .ok "\nurl: \"example.com/foo.html\"\n---\nHello\n".toList
      else .error "no such file or directory".toList
    yaml := fun header =>
      if header = "\nurl: \"example.com/foo.html\"".toList then
        .ok [("url".toList, "example.com/foo.html".toList)]
      else .ok [] }

/-- The value of a variable in an environment given to a command: that of the
last entry with the name, empty when there is none. -/
def envValue (env : List Str) (name : Str) : Str :=
  match env.reverse.find? (fun e => hasPrefix e (name ++ ['='])) with
  | some e => e.drop (name.length + 1)
  | none => []

/-- A world with two commands: `printf` with one argument, a format without
directive, prints the argument; `sh -c 'echo $ZS_FOO'` prints the value of
`ZS_FOO` in its environment and a newline.  No other command is found. -/
def pluginWorld : World :=
  { emptyWorld with
    exec := fun cmd args env =>
      if cmd = "printf".toList then
        match args with
        | [format] => .ok format
        | _ => .error "exit status 1".toList
      else if cmd = "sh".toList ∧ args = ["-c".toList, "echo $ZS_FOO".toList] then
        .ok (envValue env "ZS_FOO".toList ++ ['\n'])
      else .error "executable file not found in $PATH".toList }

/-- A world with two partials: `p.html`, which holds a macro, and `loop.html`,
which includes itself. -/
def partialWorld : World :=
  { emptyWorld with
    readFile := fun path =>
      if path = ".zazzy/p.html".toList then .ok "P\x7b\x7bfoo\x7d\x7d".toList
      else if path = ".zazzy/loop.html".toList then
        .ok "a\x7b\x7bloop.html\x7d\x7db".toList
      else .error "no such file or directory".toList }

/-- The text a plugin contributes, in the words of the specification: its
standard output when it succeeds, nothing when it fails. -/
def pluginText (w : World) (vars : Vars) (cmd : Str) (args : List Str) : Str :=
  match w.exec cmd args (runEnv w vars) with
  | .ok out => out
  | .error _ => []

/-- The files `renderlist` makes an item of: the paths that are not hidden and
that `os.Stat` finds to be no directory. -/
def isListed (w : World) (path : Str) : Bool :=
  !(decide ((filepathBase path).head? = some '.') || hasPrefix path ['.']) &&
    (match w.stat path with
      | .ok false => true
      | _ => false)

/-- The variables of an item: those of its file, with `file`, `url` and
`output` set from its path. -/
def itemVarsOf (w : World) (vitem : Vars) (path : Str) : Vars :=
  let vitem := vset vitem "file".toList path
  let vitem := vset vitem "url".toList
    (path.take (path.length - (filepathExt path).length) ++ ".html".toList)
  let vitem := vset vitem "output".toList (filepathJoin w.pubdir (vat vitem "url".toList))
  vitem

/-- The rendered item of a file: the item layout rendered at depth 1 with the
variables of the item, without error. -/
def IsItemOf (w : World) (rend : Str → Vars → Int → Vars × Outcome) (itemlayout : Str)
    (vars : Vars) (path item : Str) : Prop :=
  ∃ vitem body, getVars w path vars = .ok (vitem, body) ∧
    (rend itemlayout (itemVarsOf w vitem path) 1).2 = Outcome.ret item none

/-- A hidden path, in the words of the specification: its last element or the
path itself begins with a dot. -/
def isHidden (path : Str) : Bool :=
  decide ((filepathBase path).head? = some '.') || hasPrefix path ['.']

/-- An ignored path: it matches a pattern of the ignore list. -/
def isIgnored (w : World) (ignorelist : List Str) (path : Str) : Bool :=
  ignorelist.any (fun pattern =>
    match w.globCompile pattern with
    | some g => g path
    | none => false)

/-- A dirty file of a cycle, in the words of the specification: an entry that
is not hidden, not ignored, visited without error, no directory, and modified
strictly after the watermark. -/
def isDirty (w : World) (ignorelist : List Str) (lastModified : Int) (e : WalkEntry) : Bool :=
  !isHidden e.path && !isIgnored w ignorelist e.path && e.err.isNone && !e.isDir &&
    decide (e.modTime > lastModified)

/-- The entries the walk visits: those up to the first dirty file whose build
returns an error, that one included. -/
def visited (w : World) (b : Builders) (ignorelist : List Str) (lastModified : Int) :
    List WalkEntry → List WalkEntry
  | [] => []
  | e :: rest =>
    if isDirty w ignorelist lastModified e ∧ build b e.path ≠ Status.done then [e]
    else e :: visited w b ignorelist lastModified rest

/-- The set `D` of a cycle: the paths of the dirty files the walk visits, in
walk order. -/
def dirtyFiles (w : World) (b : Builders) (ignorelist : List Str) (lastModified : Int)
    (entries : List WalkEntry) : List Str :=
  ((visited w b ignorelist lastModified entries).filter
    (isDirty w ignorelist lastModified)).map (·.path)

/-- The events of a cycle apart from the directories made. -/
def withoutMkdir (events : List Event) : List Event :=
  events.filter (fun ev =>
    match ev with
    | .mkdir _ => false
    | _ => true)

/-- The hooks and builds of a cycle, in the words of the specification: none
when no file is dirty; else the prehook once, the builds of the dirty files,
and the posthook once. -/
def expectedEvents (dirty : List Str) : List Event :=
  if dirty = [] then [] else Event.prehook :: dirty.map Event.build ++ [Event.posthook]

/-- The hooks and builds of the cycles of watch mode: each cycle has those of
its own dirty files, the watermark of a cycle being the clock read at the end
of the cycle before. -/
def expectedCycles (w : World) (ignorelist : List Str) :
    Int → List Snapshot → List (List Event)
  | _, [] => []
  | lastModified, c :: rest =>
    expectedEvents (dirtyFiles w c.builders ignorelist lastModified c.entries)
      :: expectedCycles w ignorelist c.now rest

/-- A tree with a directory, an old file and two new files, and a second look
at it one cycle later, when one file has changed. -/
def watchedTree : List Snapshot :=
  [ { entries :=
        [ { path := ".".toList, err := none, isDir := true, modTime := 5 },
          { path := "a.md".toList, err := none, isDir := false, modTime := 5 },
          { path := "img".toList, err := none, isDir := true, modTime := 5 },
          { path := "img/x.png".toList, err := none, isDir := false, modTime := 7 } ],
      builders := failOnA, now := 10 },
    { entries :=
        [ { path := ".".toList, err := none, isDir := true, modTime := 5 },
          { path := "a.md".toList, err := none, isDir := false, modTime := 5 },
          { path := "img".toList, err := none, isDir := true, modTime := 5 },
          { path := "img/x.png".toList, err := none, isDir := false, modTime := 7 } ],
      builders := failOnA, now := 20 },
    { entries :=
        [ { path := ".".toList, err := none, isDir := true, modTime := 5 },
          { path := "a.md".toList, err := none, isDir := false, modTime := 5 },
          { path := "img".toList, err := none, isDir := true, modTime := 5 },
          { path := "img/x.png".toList, err := none, isDir := false, modTime := 25 } ],
      builders := failOnA, now := 30 } ]

/-! ## The pipelines up to the expansion of the macros -/

/-- The first two steps of `buildMarkdown` and of `buildHTML`: `getVars` of the
document with the globals, then `render` of its body at depth 1 (`rend` is
`render`); the error of `getVars` is returned as it is. -/
def expandDocument (w : World) (rend : Str → Vars → Int → Vars × Outcome)
    (path : Str) (vars : Vars) : Outcome :=
  match getVars w path vars with
  | .error e => .ret [] (some e)
  | .ok (v, body) => (rend body v 1).2

/-- What `buildMarkdown` and `buildHTML` return, as far as their first two
steps decide it: the error of the expansion is returned, and a panic of the
expansion is a panic of the build, for nothing recovers it (so is an expansion
that does not end: the stack overflows); `rest` is what the steps after the
expansion return. -/
def statusAfter (o : Outcome) (rest : Status) : Status :=
  match o with
  | .ret _ none => rest
  | .ret _ (some e) => .failed e
  | .panic => .crashed
  | .diverge => .crashed

/-- The pipelines of the program in a world, with the globals `vars` and list
items nested at most `n` deep; `rest` gives what the steps after the expansion
of the macros return. -/
def pipelines (w : World) (n : Nat) (vars : Vars) (rest : Builders) : Builders where
  markdown := fun path =>
    statusAfter (expandDocument w (renderN w n) path vars) (rest.markdown path)
  html := fun path =>
    statusAfter (expandDocument w (renderN w n) path vars) (rest.html path)
  raw := rest.raw

/-- Pipelines in which every build succeeds. -/
def allDone : Builders where
  markdown := fun _ => .done
  html := fun _ => .done
  raw := fun _ => .done

/-- A world whose one document, `a.md`, is the text of a macro with an empty
body. -/
def emptyMacroWorld : World :=
  { emptyWorld with
    readFile := fun path =>
      if path = "a.md".toList then .ok "\x7b\x7b\x7d\x7d".toList
      else .error "no such file or directory".toList }

/-- The tree of `emptyMacroWorld`, as `filepath.Walk(".")` visits it: the file
`a.md`, modified after the epoch. -/
def oneDocument : List WalkEntry :=
  [ { path := ".".toList, err := none, isDir := true, modTime := 1 },
    { path := "a.md".toList, err := none, isDir := false, modTime := 1 } ]

/-- The variables `renderlist` goes on with: those of the call, in which
`itemlayout` names the default layout of the items when the call has none. -/
def listVars (vars : Vars) : Vars :=
  match vget vars "itemlayout".toList with
  | none => vset vars "itemlayout".toList (filepathJoin ZSDIR "itemlayout.html".toList)
  | some _ => vars

/-- The layout of the items of a call of `renderlist`: the body of the file
that `itemlayout` names, the empty text when the file cannot be read. -/
def itemLayoutOf (w : World) (vars : Vars) : Str :=
  match getVars w (vat (listVars vars) "itemlayout".toList) (listVars vars) with
  | .error _ => []
  | .ok (_, body) => body

/-- A world with three dated posts and a directory; the layout of the items
writes the path of the file between `<` and `>`.  `filepath.Glob` gives the
names in ascending order. -/
def datedWorld : World :=
  { emptyWorld with
    readFile := fun path =>
      if path = "2023-12-31-c.md".toList then .ok "C".toList
      else if path = "2024-01-05-a.md".toList then .ok "A".toList
      else if path = "2024-03-01-b.md".toList then .ok "B".toList
      else if path = ".zazzy/itemlayout.html".toList then .ok "<\x7b\x7bfile\x7d\x7d>".toList
      else .error "no such file or directory".toList
    stat := fun path =>
      if path = "2023-12-31-c.md".toList ∨ path = "2024-01-05-a.md".toList
          ∨ path = "2024-03-01-b.md".toList then .ok false
      else if path = "2024-02-01-d.md".toList then .ok true
      else .error "no such file or directory".toList
    glob := fun pattern =>
      if pattern = "*.md".toList then
        .ok ["2023-12-31-c.md".toList, "2024-01-05-a.md".toList, "2024-02-01-d.md".toList,
          "2024-03-01-b.md".toList]
      else .ok [] }

/-! # Lemmas and theorems -/

/-- Trimming a suffix that is there leaves what is before it. -/
theorem trimSuffix_append (stem e : Str) : trimSuffix (stem ++ e) e = stem := by
  have h : hasSuffix (stem ++ e) e = true := by
    simp [hasSuffix]
  simp [trimSuffix, h]

/-- C9: `renameExt` works with the extension given, or with the actual
extension of the path when none is given; when that extension is empty or the
path ends with it, the result is the path without that suffix followed by the
new extension, otherwise the path itself.  The five examples of the test are
part of the statement. -/
theorem renameExt_spec :
    (∀ path oldext newext : Str,
      (extensionUsed path oldext = [] ∨ extensionUsed path oldext <:+ path →
        ∃ stem, path = stem ++ extensionUsed path oldext ∧
          renameExt path oldext newext = stem ++ newext) ∧
      (¬ (extensionUsed path oldext = [] ∨ extensionUsed path oldext <:+ path) →
        renameExt path oldext newext = path)) ∧
    renameExt "foo.md".toList ".md".toList ".html".toList = "foo.html".toList ∧
    renameExt "foo.md".toList [] ".html".toList = "foo.html".toList ∧
    renameExt "foo.txt".toList ".md".toList ".html".toList = "foo.txt".toList ∧
    renameExt "foo".toList ".md".toList ".html".toList = "foo".toList ∧
    renameExt "foo".toList [] ".html".toList = "foo.html".toList := by
  refine ⟨?_, by decide, by decide, by decide, by decide, by decide⟩
  intro path oldext newext
  have hu : renameExt path oldext newext =
      if extensionUsed path oldext = [] ∨ hasSuffix path (extensionUsed path oldext) = true
      then trimSuffix path (extensionUsed path oldext) ++ newext else path := by
    unfold renameExt extensionUsed
    by_cases h : oldext = [] <;> simp [h]
  generalize extensionUsed path oldext = e at hu
  have hs : hasSuffix path e = true ↔ e <:+ path := by simp [hasSuffix]
  constructor
  · intro h
    have h2 : e <:+ path := by
      rcases h with h | h
      · subst h; exact List.nil_suffix
      · exact h
    obtain ⟨stem, rfl⟩ := h2
    refine ⟨stem, rfl, ?_⟩
    rw [hu, if_pos (Or.inr (hs.2 ⟨stem, rfl⟩)), trimSuffix_append]
  · intro h
    rw [hu, if_neg]
    rw [hs]; exact h

/-- The model of `strings.Index` finds nothing exactly when there is no
occurrence. -/
theorem index_eq_none_iff (s sub : Str) : index s sub = none ↔ ¬ sub <:+: s := by
  induction s with
  | nil =>
    by_cases h : sub = [] <;> simp [index, h]
  | cons c cs ih =>
    unfold index
    by_cases hp : sub.isPrefixOf (c :: cs) = true
    · have hp2 : sub <+: c :: cs := by simpa using hp
      simp [hp, hp2.isInfix]
    · have hp2 : ¬ sub <+: c :: cs := by simpa using hp
      simp only [hp, Bool.false_eq_true, if_false, Option.map_eq_none', ih, List.infix_cons_iff,
        hp2, false_or]

/-- An occurrence of a doubled character in `a ++ b` lies in `a`, in `b`, or
across the two. -/
theorem pair_infix_append (d : Char) (a b : Str) (h : [d, d] <:+: a ++ b) :
    [d, d] <:+: a ∨ [d, d] <:+: b ∨ (a.getLast? = some d ∧ b.head? = some d) := by
  induction a with
  | nil => exact Or.inr (Or.inl h)
  | cons c cs ih =>
    rw [List.cons_append, List.infix_cons_iff] at h
    rcases h with h | h
    · cases cs with
      | nil =>
        cases b with
        | nil => simp at h
        | cons b0 bs =>
          simp at h
          right; right; simp [← h.1, ← h.2]
      | cons c2 cs2 =>
        left
        simp at h
        rw [← h.1, ← h.2]
        exact (List.prefix_append [d, d] cs2).isInfix
    · rcases ih h with h1 | h1 | ⟨h1, h2⟩
      · exact Or.inl (List.infix_cons h1)
      · exact Or.inr (Or.inl h1)
      · right; right
        refine ⟨?_, h2⟩
        cases cs with
        | nil => simp at h1
        | cons c2 cs2 => simpa using h1

/-- The first occurrence of a doubled character after a text that has none and
does not end with the character is right after that text. -/
theorem index_pair_append (d : Char) (a rest : Str) (h : ¬ [d, d] <:+: a)
    (hl : a.getLast? ≠ some d) : index (a ++ d :: d :: rest) [d, d] = some a.length := by
  induction a with
  | nil => simp [index]
  | cons c cs ih =>
    have hcs : ¬ [d, d] <:+: cs := fun h2 => h (List.infix_cons h2)
    have hlcs : cs.getLast? ≠ some d := by
      cases cs with
      | nil => simp
      | cons c2 cs2 => simpa using hl
    have hp : [d, d].isPrefixOf (c :: (cs ++ d :: d :: rest)) = false := by
      cases cs with
      | nil =>
        have : c ≠ d := by simpa using hl
        simp [List.isPrefixOf, Ne.symm this]
      | cons c2 cs2 =>
        by_contra hq
        have hq2 : [d, d] <+: c :: c2 :: (cs2 ++ d :: d :: rest) := by simpa using hq
        apply h
        simp at hq2
        rw [← hq2.1, ← hq2.2]
        exact (List.prefix_append [d, d] cs2).isInfix
    rw [List.cons_append]
    unfold index
    simp [hp, ih hcs hlcs]

/-- A text without a character has no occurrence of the character doubled. -/
theorem not_pair_infix_of_not_mem (d : Char) (k : Str) (h : d ∉ k) : ¬ [d, d] <:+: k :=
  fun hi => h (hi.subset (by simp))

/-- A run of characters that are not spaces is one field. -/
theorem fieldsAux_of_no_space (k cur : Str) (hk : ∀ c ∈ k, isSpace c = false)
    (hne : cur.reverse ++ k ≠ []) : fieldsAux k cur = [cur.reverse ++ k] := by
  induction k generalizing cur with
  | nil =>
    have : cur ≠ [] := by simpa using hne
    simp [fieldsAux, this]
  | cons c cs ih =>
    have hc : isSpace c = false := hk c (by simp)
    have := ih (c :: cur) (fun x hx => hk x (by simp [hx])) (by simp)
    simp [fieldsAux, hc, this]

/-- A non-empty text without spaces has itself as its only field. -/
theorem fields_of_no_space (k : Str) (hk : ∀ c ∈ k, isSpace c = false) (hne : k ≠ []) :
    fields k = [k] := by
  have := fieldsAux_of_no_space k [] hk (by simpa using hne)
  simpa [fields] using this

/-- The loop of `render` on a text without open delimiter: the text is written
and the loop ends. -/
theorem renderLoop_no_open (w : World) (rl : Vars → List Str → Vars × Outcome)
    (recur : Str → Vars → Vars × Outcome) (deep : Int) (fuel : Nat) (s out : Str) (vars : Vars)
    (h : index s delimOpen = none) :
    renderLoop w rl recur deep (fuel + 1) s out vars = (vars, .ret (out ++ s) none) := by
  simp [renderLoop, h]

/-- One turn of the loop of `render` on a macro that is the name of a
variable. -/
theorem renderLoop_variable (w : World) (rl : Vars → List Str → Vars × Outcome)
    (recur : Str → Vars → Vars × Outcome) (deep : Int) (fuel : Nat) (out : Str) (vars : Vars)
    (k v pre suf : Str)
    (hv : vget vars k = some v)
    (hne : k ≠ [])
    (hk : ∀ c ∈ k, isSpace c = false ∧ c ≠ '{' ∧ c ≠ '}')
    (hrl : k ≠ "renderlist".toList) (hfav : k ≠ "favicon".toList)
    (hhtml : filepathExt k ≠ ".html".toList) (hmd : filepathExt k ≠ ".md".toList)
    (hpo : ¬ delimOpen <:+: pre) (hpc : ¬ delimClose <:+: pre)
    (hlast : pre.getLast? ≠ some '{') :
    renderLoop w rl recur deep (fuel + 1) (pre ++ delimOpen ++ k ++ delimClose ++ suf) out vars =
      renderLoop w rl recur deep fuel suf (out ++ pre ++ v) vars := by
  have hfrom : index (pre ++ delimOpen ++ k ++ delimClose ++ suf) delimOpen = some pre.length := by
    have := index_pair_append '{' pre (k ++ delimClose ++ suf) hpo hlast
    simpa [delimOpen, List.append_assoc] using this
  have hkc : '}' ∉ k := fun hm => (hk _ hm).2.2 rfl
  have hno : ¬ [('}' : Char), '}'] <:+: pre ++ delimOpen ++ k := by
    intro hi
    rcases pair_infix_append '}' (pre ++ delimOpen) k hi with h1 | h1 | ⟨h1, _⟩
    · rcases pair_infix_append '}' pre delimOpen h1 with h2 | h2 | ⟨_, h2⟩
      · exact hpc h2
      · exact absurd h2 (by decide)
      · exact absurd h2 (by decide)
    · exact not_pair_infix_of_not_mem '}' k hkc h1
    · simp [delimOpen] at h1
  have hnl : (pre ++ delimOpen ++ k).getLast? ≠ some '}' := by
    intro hl
    rcases List.eq_nil_or_concat k with hk0 | ⟨k', c, rfl⟩
    · exact hne hk0
    · simp [List.concat_eq_append] at hl hkc
      exact hkc.2 hl.symm
  have hto : index (pre ++ delimOpen ++ k ++ delimClose ++ suf) delimClose
      = some (pre.length + 2 + k.length) := by
    have := index_pair_append '}' (pre ++ delimOpen ++ k) suf hno hnl
    simp only [delimOpen, delimClose, List.append_assoc, List.length_append, List.length_cons,
      List.length_nil, List.cons_append, List.nil_append] at this ⊢
    rw [this]
    congr 1
    omega
  have htake : (pre ++ delimOpen ++ k ++ delimClose ++ suf).take pre.length = pre := by
    simp [List.append_assoc]
  have hcmd : ((pre ++ delimOpen ++ k ++ delimClose ++ suf).take (pre.length + 2 + k.length)).drop
      (pre.length + delimOpen.length) = k := by
    have h1 : pre ++ delimOpen ++ k ++ delimClose ++ suf
        = (pre ++ delimOpen ++ k) ++ (delimClose ++ suf) := by simp [List.append_assoc]
    rw [h1, List.take_left' (by simp [delimOpen]; omega)]
    rw [List.drop_left' (by simp [delimOpen])]
  have hrest : (pre ++ delimOpen ++ k ++ delimClose ++ suf).drop
      (pre.length + 2 + k.length + delimClose.length) = suf := by
    have h1 : pre ++ delimOpen ++ k ++ delimClose ++ suf
        = (pre ++ delimOpen ++ k ++ delimClose) ++ suf := by simp [List.append_assoc]
    rw [h1, List.drop_left' (by simp [delimOpen, delimClose]; omega)]
  have hf : fields k = [k] := fields_of_no_space k (fun c hc => (hk c hc).1) hne
  have hlt : ¬ (pre.length + 2 + k.length < pre.length + delimOpen.length) := by
    simp [delimOpen]
  rw [renderLoop]
  simp only [hfrom, hto, htake, hcmd, hrest, hf, hlt, if_false, hrl, hfav, hhtml, hmd, false_or,
    hv, List.length_nil, Nat.zero_add, if_true]

/-- C1: on the text `}}{{` the first open delimiter is followed by no close
delimiter, and `render` does not return an error: the close delimiter found
is the one before the open delimiter, and the slice between the two panics.
So it is for every text whose first close delimiter begins before the end of
its first open delimiter.  On a text with an open delimiter and no close
delimiter at all, such as the one of the test, the error is returned with the
empty string. -/
theorem render_close_before_open_panics :
    (∀ (w : World) (rl : Vars → List Str → Vars × Outcome) (vars : Vars) (deep : Int),
      render w rl "\x7d\x7d\x7b\x7b".toList vars deep = (vars, Outcome.panic)) ∧
    (∀ (w : World) (rl : Vars → List Str → Vars × Outcome) (vars : Vars) (deep : Int),
      render w rl "a \x7b\x7bgreet text ".toList vars deep
        = (vars, Outcome.ret [] (some "close delim not found".toList))) ∧
    (∀ (w : World) (rl : Vars → List Str → Vars × Outcome) (s : Str) (vars : Vars) (deep : Int)
      (from_ to_ : Nat), index s delimOpen = some from_ → index s delimClose = some to_ →
      to_ < from_ + 2 → render w rl s vars deep = (vars, Outcome.panic)) ∧
    (∀ (w : World) (rl : Vars → List Str → Vars × Outcome) (s : Str) (vars : Vars) (deep : Int)
      (from_ : Nat), index s delimOpen = some from_ → index s delimClose = none →
      render w rl s vars deep = (vars, Outcome.ret [] (some "close delim not found".toList))) := by
  refine ⟨?_, ?_, ?_, ?_⟩
  · intro w rl vars deep
    rfl
  · intro w rl vars deep
    rfl
  · intro w rl s vars deep from_ to_ ho hc hlt
    have hlt2 : to_ < from_ + delimOpen.length := hlt
    rw [render, renderAt, renderLoop]
    simp only [ho, hc, hlt2, if_true]
  · intro w rl s vars deep from_ ho hc
    rw [render, renderAt, renderLoop]
    simp only [ho, hc]

/-- C2, as stated, fails: with `pre = a{`, which contains no delimiter, the
first `{{` of `a{{{foo}}` begins at the last character of `pre`; the macro read
is `{foo`, which is no variable, and the value of `foo` is not inserted. -/
theorem render_variable_after_brace :
    vget [("foo".toList, "bar".toList)] "foo".toList = some "bar".toList ∧
    "foo".toList ≠ [] ∧
    (∀ c ∈ "foo".toList, isSpace c = false ∧ c ≠ '{' ∧ c ≠ '}') ∧
    "foo".toList ≠ "renderlist".toList ∧ "foo".toList ≠ "favicon".toList ∧
    filepathExt "foo".toList ≠ ".html".toList ∧ filepathExt "foo".toList ≠ ".md".toList ∧
    (¬ delimOpen <:+: "a\x7b".toList) ∧ (¬ delimClose <:+: "a\x7b".toList) ∧
    (¬ delimOpen <:+: ([] : Str)) ∧
    (render emptyWorld noList ("a\x7b".toList ++ delimOpen ++ "foo".toList ++ delimClose ++ [])
        [("foo".toList, "bar".toList)] 1).2 = Outcome.ret "a".toList none ∧
    Outcome.ret "a".toList none ≠ Outcome.ret ("a\x7b".toList ++ "bar".toList ++ []) none := by
  refine ⟨by decide, by decide, by decide, by decide, by decide, by decide, by decide,
    by decide, by decide, by decide, by decide, by decide⟩

/-- C2, amended: when, moreover, `pre` does not end with `{`, the macro
`{{k}}` of a variable `k` is replaced by the value of `k` as it is, and the
text around it is kept. -/
theorem render_variable (w : World) (rl : Vars → List Str → Vars × Outcome)
    (vars : Vars) (k v pre suf : Str) (deep : Int)
    (hv : vget vars k = some v)
    (hne : k ≠ [])
    (hk : ∀ c ∈ k, isSpace c = false ∧ c ≠ '{' ∧ c ≠ '}')
    (hrl : k ≠ "renderlist".toList) (hfav : k ≠ "favicon".toList)
    (hhtml : filepathExt k ≠ ".html".toList) (hmd : filepathExt k ≠ ".md".toList)
    (hpo : ¬ delimOpen <:+: pre) (hpc : ¬ delimClose <:+: pre)
    (hlast : pre.getLast? ≠ some '{')
    (hso : ¬ delimOpen <:+: suf) :
    render w rl (pre ++ delimOpen ++ k ++ delimClose ++ suf) vars deep
      = (vars, Outcome.ret (pre ++ v ++ suf) none) := by
  have hlen : (pre ++ delimOpen ++ k ++ delimClose ++ suf).length + 1
      = (pre.length + k.length + suf.length + 3 + 1) + 1 := by
    simp [delimOpen, delimClose]; omega
  rw [render, renderAt, hlen,
    renderLoop_variable w rl _ deep _ [] vars k v pre suf hv hne hk hrl hfav hhtml hmd hpo hpc hlast,
    renderLoop_no_open w rl _ deep _ suf _ vars ((index_eq_none_iff _ _).2 hso)]
  simp

/-- The test of the source: `a {{foo}} text` with `foo = bar`. -/
theorem render_variable_witness :
    render emptyWorld noList
        ("a ".toList ++ delimOpen ++ "foo".toList ++ delimClose ++ " text".toList)
        [("foo".toList, "bar".toList)] 1
      = ([("foo".toList, "bar".toList)], Outcome.ret ("a ".toList ++ "bar".toList ++ " text".toList) none) :=
  render_variable emptyWorld noList [("foo".toList, "bar".toList)] "foo".toList "bar".toList
    "a ".toList " text".toList 1 (by decide) (by decide) (by decide) (by decide) (by decide)
    (by decide) (by decide) (by decide) (by decide) (by decide) (by decide)

/-- Reading a key after a write. -/
theorem vget_vset (m : Vars) (k x k' : Str) :
    vget (vset m k x) k' = if k' = k then some x else vget m k' := by
  unfold vget vset
  by_cases h : k' = k
  · subst h; simp [List.lookup]
  · have hb : (k' == k) = false := by simpa using h
    simp only [List.lookup, hb, if_neg h]
    induction m with
    | nil => simp
    | cons p ps ih =>
      by_cases hp : p.1 = k
      · have : (k' == p.1) = false := by rw [hp]; exact hb
        obtain ⟨p1, p2⟩ := p
        simp only at hp this
        simp only [decide_not] at ih
        simp [List.filter, hp, List.lookup, hb, ih]
      · obtain ⟨p1, p2⟩ := p
        simp only at hp
        simp only [decide_not] at ih
        simp [List.filter, hp, List.lookup, ih]

/-- Reading a key after an overlay: the upper map wins. -/
theorem vget_overlay (base over : Vars) (k : Str) :
    vget (overlay base over) k = (vget over k).or (vget base k) := by
  induction over with
  | nil => simp [overlay, vget]
  | cons p ps ih =>
    obtain ⟨p1, p2⟩ := p
    have : overlay base ((p1, p2) :: ps) = vset (overlay base ps) p1 p2 := rfl
    rw [this, vget_vset]
    by_cases h : k = p1
    · subst h; simp [vget]
    · have hb : (k == p1) = false := by simpa using h
      rw [if_neg h, ih]
      simp [vget, List.lookup, hb]

/-- The position found by `index` is that of an occurrence. -/
theorem index_some_split (s sub : Str) (n : Nat) (h : index s sub = some n) :
    s = s.take n ++ sub ++ s.drop (n + sub.length) := by
  induction s generalizing n with
  | nil =>
    by_cases hs : sub = []
    · simp [index, hs] at h; subst h; simp [hs]
    · simp [index, hs] at h
  | cons c cs ih =>
    unfold index at h
    by_cases hp : sub.isPrefixOf (c :: cs) = true
    · simp [hp] at h
      subst h
      obtain ⟨t, ht⟩ : sub <+: c :: cs := by simpa using hp
      rw [← ht]; simp
    · simp only [hp, Bool.false_eq_true, if_false, Option.map_eq_some'] at h
      obtain ⟨m, hm, rfl⟩ := h
      have := ih m hm
      simp only [List.take_succ_cons, List.cons_append]
      rw [show m + 1 + sub.length = (m + sub.length) + 1 by omega, List.drop_succ_cons]
      exact congrArg (c :: ·) this

/-- No occurrence begins before the position found by `index`. -/
theorem index_some_le (s sub : Str) (n : Nat) (h : index s sub = some n) (a b : Str)
    (hs : s = a ++ sub ++ b) : n ≤ a.length := by
  induction s generalizing n a with
  | nil =>
    by_cases hs' : sub = []
    · simp [index, hs'] at h; omega
    · simp [index, hs'] at h
  | cons c cs ih =>
    unfold index at h
    by_cases hp : sub.isPrefixOf (c :: cs) = true
    · simp [hp] at h; omega
    · simp only [hp, Bool.false_eq_true, if_false, Option.map_eq_some'] at h
      obtain ⟨m, hm, rfl⟩ := h
      cases a with
      | nil =>
        exfalso; apply hp
        simp only [List.isPrefixOf_iff_prefix]
        exact ⟨b, by simpa using hs.symm⟩
      | cons a0 a' =>
        simp only [List.cons_append, List.cons.injEq] at hs
        have := ih m hm a' hs.2
        simp; omega

/-- The text before the first occurrence of a non-empty text has no occurrence
of it. -/
theorem not_infix_take_index (s sub : Str) (n : Nat) (h : index s sub = some n)
    (hne : sub ≠ []) : ¬ sub <:+: s.take n := by
  rintro ⟨a, b, hab⟩
  have hs : s = a ++ sub ++ (b ++ s.drop n) := by
    conv_lhs => rw [← List.take_append_drop n s, ← hab]
    simp [List.append_assoc]
  have hle := index_some_le s sub n h a _ hs
  have hlen : (s.take n).length ≤ n := by simp
  rw [← hab] at hlen
  simp at hlen
  have : sub.length = 0 := by omega
  exact hne (List.length_eq_zero.mp this)

/-- The default variables, key by key: the five assignments of `getVars` give
what the specification lists. -/
theorem vget_defaultVars (w : World) (path k : Str) (hk : k ≠ "layout".toList) :
    vget (defaultVars w path) k = vget (specDefaults w path) k := by
  by_cases h1 : k = "title".toList
  · subst h1; rfl
  by_cases h2 : k = "description".toList
  · subst h2; rfl
  by_cases h3 : k = "file".toList
  · subst h3; rfl
  by_cases h4 : k = "url".toList
  · subst h4; rfl
  by_cases h5 : k = "output".toList
  · subst h5; rfl
  have e : defaultVars w path =
      [ ("output".toList, filepathJoin w.pubdir
          (path.take (path.length - (filepathExt path).length) ++ ".html".toList)),
        ("url".toList, path.take (path.length - (filepathExt path).length) ++ ".html".toList),
        ("file".toList, path),
        ("description".toList, []),
        ("title".toList, toTitle w.ct (replaceAll (replaceAll path '_' ' ') '-' ' ')) ] := rfl
  have b0 : (k == "layout".toList) = false := beq_eq_false_iff_ne.2 hk
  have b1 : (k == "title".toList) = false := beq_eq_false_iff_ne.2 h1
  have b2 : (k == "description".toList) = false := beq_eq_false_iff_ne.2 h2
  have b3 : (k == "file".toList) = false := beq_eq_false_iff_ne.2 h3
  have b4 : (k == "url".toList) = false := beq_eq_false_iff_ne.2 h4
  have b5 : (k == "output".toList) = false := beq_eq_false_iff_ne.2 h5
  rw [e]
  simp only [vget, specDefaults, List.lookup, b0, b1, b2, b3, b4, b5]

/-- The variables before the header is read: the globals over the defaults. -/
theorem vget_baseVars (w : World) (path : Str) (G : Vars) (k : Str) :
    vget (baseVars w path G) k = (vget G k).or (vget (specDefaults w path) k) := by
  have hl : vget (overlay (defaultVars w path) G) "layout".toList = vget G "layout".toList := by
    rw [vget_overlay]
    have : vget (defaultVars w path) "layout".toList = none := rfl
    rw [this]; simp
  have hs : vget (specDefaults w path) "layout".toList = some "layout.html".toList := rfl
  unfold baseVars
  simp only [hl]
  cases hg : vget G "layout".toList with
  | none =>
    simp only [vget_vset, vget_overlay]
    by_cases hk : k = "layout".toList
    · subst hk; rw [if_pos rfl, hg, hs]; rfl
    · rw [if_neg hk, vget_defaultVars w path k hk]
  | some x =>
    simp only [vget_overlay]
    by_cases hk : k = "layout".toList
    · subst hk; rw [hg]; rfl
    · rw [vget_defaultVars w path k hk]

/-- A decomposition at the first occurrence is the one `index` finds. -/
theorem index_of_first_split (s sub a b : Str) (hs : s = a ++ sub ++ b)
    (hfirst : ∀ a' b', s = a' ++ sub ++ b' → a.length ≤ a'.length) :
    index s sub = some a.length := by
  cases h : index s sub with
  | none =>
    exact absurd ⟨a, b, hs.symm⟩ ((index_eq_none_iff s sub).1 h)
  | some n =>
    have h1 := index_some_le s sub n h a b hs
    have h2 := hfirst _ _ (index_some_split s sub n h)
    have h3 : (s.take n).length ≤ n := by simp
    congr 1; omega

/-- C3: for a document whose content has the header delimiter and whose header
(the text before the first delimiter) decodes to `H`, the variables returned by
`getVars` are, at every key but `url`, the value of `H`, else that of the
globals `G`, else the computed default; a key that is in none of the three is
not in the result. -/
theorem getVars_layering (w : World) (path content : Str) (G H : Vars) (header body : Str)
    (hread : w.readFile path = .ok content)
    (hsplit : content = header ++ headerDelim ++ body)
    (hfirst : ∀ h' b', content = h' ++ headerDelim ++ b' → header.length ≤ h'.length)
    (hyaml : w.yaml header = .ok H) :
    ∃ v, getVars w path G = .ok (v, body) ∧
      ∀ k, k ≠ "url".toList →
        vget v k = (vget H k).or ((vget G k).or (vget (specDefaults w path) k)) := by
  have hi := index_of_first_split content headerDelim header body hsplit hfirst
  have ht : content.take header.length = header := by
    rw [hsplit, List.append_assoc, List.take_left' rfl]
  have hd : content.drop (header.length + headerDelim.length) = body := by
    rw [hsplit, List.drop_left' (by simp)]
  have hg : getVars w path G = .ok
      (vset (overlay (baseVars w path G) H) "url".toList
        (trimLeft (vat (overlay (baseVars w path G) H) "url".toList) ['.', '/']), body) := by
    unfold getVars
    simp only [hread, hi, ht, hd, hyaml]
  refine ⟨_, hg, ?_⟩
  intro k hk
  rw [vget_vset, if_neg hk, vget_overlay, vget_baseVars]

/-- The test `TestVars`: the header `foo: bar`, `title: Hello, world!` in
`test.md` with the globals `baz = 123`. -/
theorem getVars_layering_witness :
    ∃ v, getVars docWorld "test.md".toList [("baz".toList, "123".toList)]
        = .ok (v, "Some content in markdown\n".toList) ∧
      vget v "foo".toList = some "bar".toList ∧
      vget v "baz".toList = some "123".toList ∧
      vget v "title".toList = some "Hello, world!".toList ∧
      vget v "file".toList = some "test.md".toList ∧
      vget v "output".toList = some ".pub/test.html".toList := by
  obtain ⟨v, hv, hk⟩ := getVars_layering docWorld "test.md".toList
    "\nfoo: bar\ntitle: Hello, world!\n---\nSome content in markdown\n".toList
    [("baz".toList, "123".toList)]
    [("foo".toList, "bar".toList), ("title".toList, "Hello, world!".toList)]
    "\nfoo: bar\ntitle: Hello, world!".toList "Some content in markdown\n".toList
    rfl (by decide)
    (fun h' b' e => index_some_le _ _ 30 (by decide) h' b' e) rfl
  refine ⟨v, hv, ?_, ?_, ?_, ?_, ?_⟩
  · rw [hk _ (by decide)]; decide
  · rw [hk _ (by decide)]; decide
  · rw [hk _ (by decide)]; decide
  · rw [hk _ (by decide)]; decide
  · rw [hk _ (by decide)]; decide

/-- C10, as stated, fails: the content of `bad.md` has the delimiter, and its
header `[` does not decode; `getVars` returns the error, and no body. -/
theorem getVars_bad_header_no_body :
    headerDelim <:+: "[\n---\nHello\n".toList ∧
    docWorld.readFile "bad.md".toList = .ok "[\n---\nHello\n".toList ∧
    getVars docWorld "bad.md".toList []
      = .error "yaml: line 1: did not find expected node content".toList ∧
    ∀ v, getVars docWorld "bad.md".toList [] ≠ .ok (v, "Hello\n".toList) := by
  refine ⟨by decide, rfl, rfl, ?_⟩
  intro v h
  have : getVars docWorld "bad.md".toList []
      = .error "yaml: line 1: did not find expected node content".toList := rfl
  rw [this] at h
  exact absurd h (by simp)

/-- C10, amended: a content that has the delimiter splits at its first
occurrence into a header without delimiter and a body; when that header decodes
`getVars` returns the body, all the text after the first delimiter, and when
it does not `getVars` returns the error of the decoder.  For a content without
delimiter the body is the whole content and the variables are the globals over
the defaults. -/
theorem getVars_split (w : World) (path content : Str) (G : Vars)
    (hread : w.readFile path = .ok content) :
    (headerDelim <:+: content →
      ∃ header body, content = header ++ headerDelim ++ body ∧
        ∀ h' b', content = h' ++ headerDelim ++ b' → header.length ≤ h'.length) ∧
    (∀ header body, content = header ++ headerDelim ++ body →
      (∀ h' b', content = h' ++ headerDelim ++ b' → header.length ≤ h'.length) →
      (¬ headerDelim <:+: header) ∧
      (∀ H, w.yaml header = .ok H → ∃ v, getVars w path G = .ok (v, body)) ∧
      (∀ e, w.yaml header = .error e → getVars w path G = .error e)) ∧
    (¬ headerDelim <:+: content →
      ∃ v, getVars w path G = .ok (v, content) ∧
        ∀ k, vget v k = (vget G k).or (vget (specDefaults w path) k)) := by
  refine ⟨?_, ?_, ?_⟩
  · intro hc
    cases h : index content headerDelim with
    | none => exact absurd hc ((index_eq_none_iff _ _).1 h)
    | some n =>
      refine ⟨content.take n, content.drop (n + headerDelim.length),
        index_some_split _ _ _ h, ?_⟩
      intro h' b' e
      have := index_some_le _ _ _ h h' b' e
      have h3 : (content.take n).length ≤ n := by simp
      omega
  · intro header body hsplit hfirst
    have hi := index_of_first_split content headerDelim header body hsplit hfirst
    have ht : content.take header.length = header := by
      rw [hsplit, List.append_assoc, List.take_left' rfl]
    have hd : content.drop (header.length + headerDelim.length) = body := by
      rw [hsplit, List.drop_left' (by simp)]
    refine ⟨?_, ?_, ?_⟩
    · have := not_infix_take_index content headerDelim _ hi (by decide)
      rwa [ht] at this
    · intro H hy
      refine ⟨vset (overlay (baseVars w path G) H) "url".toList
        (trimLeft (vat (overlay (baseVars w path G) H) "url".toList) ['.', '/']), ?_⟩
      unfold getVars
      simp only [hread, hi, ht, hd, hy]
    · intro e hy
      unfold getVars
      simp only [hread, hi, ht, hd, hy]
  · intro hc
    have hi : index content headerDelim = none := (index_eq_none_iff _ _).2 hc
    refine ⟨baseVars w path G, ?_, fun k => vget_baseVars w path G k⟩
    unfold getVars
    simp only [hread, hi]

/-- The first document of the test `TestVars`: the body is the text after the
delimiter. -/
theorem getVars_split_witness :
    ∃ v, getVars docWorld "test.md".toList [("baz".toList, "123".toList)]
      = .ok (v, "Some content in markdown\n".toList) :=
  ((getVars_split docWorld "test.md".toList
      "\nfoo: bar\ntitle: Hello, world!\n---\nSome content in markdown\n".toList
      [("baz".toList, "123".toList)] rfl).2.1
    "\nfoo: bar\ntitle: Hello, world!".toList "Some content in markdown\n".toList
    (by decide) (fun h' b' e => index_some_le _ _ 30 (by decide) h' b' e)).2.1
    [("foo".toList, "bar".toList), ("title".toList, "Hello, world!".toList)] rfl

/-- C4: a url with a capital letter is written twice.  The line read back from
the file is put in lower case before it is compared with the entry, the entry
is not, so the second call does not find the entry of the first and appends it
again: the file has two equal lines. -/
theorem appendSitemap_twice_duplicates :
    appendSitemap asciiCase sitemapVars none = some "Index.html\n".toList ∧
    appendSitemap asciiCase sitemapVars (appendSitemap asciiCase sitemapVars none)
      = some "Index.html\nIndex.html\n".toList := by
  constructor <;> decide

/-- C5: the build of `a.md` fails, and the walk ends there: `b.md`, which comes
later and is as new, is not built in the cycle.  The error of `build` is what
the walk function returns, and `filepath.Walk` stops at the first error:
whenever the walk function returns an error at an entry, the entries after it
are not visited. -/
theorem buildAll_stops_at_failed_build :
    build failOnA "a.md".toList ≠ Status.done ∧
    buildAll emptyWorld failOnA twoFiles
      = some [Event.mkdir ".pub".toList, Event.prehook, Event.build "a.md".toList,
          Event.posthook] ∧
    (∀ events, buildAll emptyWorld failOnA twoFiles = some events →
      Event.build "b.md".toList ∉ events) ∧
    (∀ (w : World) (b : Builders) (ignorelist : List Str) (lastModified : Int)
      (st st' : CycleState) (e : WalkEntry) (rest : List WalkEntry) (err : Str),
      walkFn w b ignorelist lastModified st e = (st', Status.failed err) →
      walk (walkFn w b ignorelist lastModified) st (e :: rest) = (st', Status.failed err)) := by
  have h : buildAll emptyWorld failOnA twoFiles
      = some [Event.mkdir ".pub".toList, Event.prehook, Event.build "a.md".toList,
          Event.posthook] := by decide
  refine ⟨by decide, h, ?_, ?_⟩
  · intro events he
    rw [h] at he
    cases he
    decide
  · intro w b ignorelist lastModified st st' e rest err hfn
    rw [walk, hfn]

/-- The loop of `renderlist` over the files does the same with an ignore list
whose patterns all compile as with none. -/
theorem renderItems_ignores_ignorelist (w : World)
    (rend : Str → Vars → Int → Vars × Outcome) (ignorelist : List Str) (itemlayout : Str)
    (vars : Vars) (paths : List Str) (result : Str)
    (hc : ignoreLoopPanics w ignorelist = false) :
    renderItems w rend ignorelist itemlayout vars paths result
      = renderItems w rend [] itemlayout vars paths result := by
  have h0 : ignoreLoopPanics w [] = false := rfl
  induction paths generalizing result with
  | nil => rfl
  | cons path rest ih =>
    rw [renderItems, renderItems]
    simp only [hc, h0, ih]

/-- C6: the ignore list is `a.md`, and the item of `a.md` is in the output all
the same.  The `continue` of the loop over the ignore list goes on with the
next pattern, not with the next file: whatever the ignore list (of patterns
that compile), the items rendered are those rendered with no ignore list. -/
theorem renderlist_renders_ignored :
    loadIgnore listWorld = ["a.md".toList] ∧
    (listWorld.globCompile "a.md".toList).map (fun g => g "a.md".toList) = some true ∧
    (renderlistN listWorld 1 [] ["*.md".toList]).2
      = Outcome.ret "<b.md><a.md>".toList none ∧
    (∀ (w : World) (rend : Str → Vars → Int → Vars × Outcome) (ignorelist : List Str)
      (itemlayout : Str) (vars : Vars) (paths : List Str),
      ignoreLoopPanics w ignorelist = false →
      renderItems w rend ignorelist itemlayout vars paths []
        = renderItems w rend [] itemlayout vars paths []) := by
  refine ⟨by decide, by decide, by decide, ?_⟩
  intro w rend ignorelist itemlayout vars paths hc
  exact renderItems_ignores_ignorelist w rend ignorelist itemlayout vars paths [] hc

/-- C7: `a.md` cannot be read, and `renderlist` returns the error of the read
with the empty string: the item of `b.md`, rendered before, is dropped.  So it
is whenever `getVars` fails on a file that is not hidden and is no directory:
the loop returns the error at once, whatever it has rendered so far. -/
theorem renderlist_aborts_on_read_error :
    unreadableWorld.stat "a.md".toList = .ok false ∧
    unreadableWorld.readFile "a.md".toList = .error "open a.md: permission denied".toList ∧
    unreadableWorld.readFile "b.md".toList = .ok "B".toList ∧
    (renderlistN unreadableWorld 1 [] ["*.md".toList]).2
      = Outcome.ret [] (some "open a.md: permission denied".toList) ∧
    (∀ (w : World) (rend : Str → Vars → Int → Vars × Outcome) (ignorelist : List Str)
      (itemlayout : Str) (vars : Vars) (path : Str) (rest : List Str) (result err : Str),
      (filepathBase path).head? ≠ some '.' → hasPrefix path ['.'] = false →
      ignoreLoopPanics w ignorelist = false → w.stat path = .ok false →
      w.readFile path = .error err →
      renderItems w rend ignorelist itemlayout vars (path :: rest) result
        = Outcome.ret [] (some err)) := by
  refine ⟨rfl, rfl, rfl, by decide, ?_⟩
  intro w rend ignorelist itemlayout vars path rest result err h1 h2 h3 h4 h5
  have hg : getVars w path vars = .error err := by
    unfold getVars
    simp only [h5]
  rw [renderItems]
  simp only [h1, h2, h3, h4, hg, false_or, Bool.false_eq_true, if_false]

/-- The step of `loadIgnore` that adds the publish directory: when the ignore
file can be opened and neither the publish directory nor its last element
begins with a dot, the last pattern of the ignore list is the publish
directory, without trailing slashes, followed by `**`, whatever the lines of
the file are. -/
theorem loadIgnore_appends_pubdir (w : World) (content : Str)
    (hopen : w.openRead ".zazzy/.ignore".toList = some content)
    (hdir : ¬ ['.'] <+: w.pubdir) (hbase : ¬ ['.'] <+: filepathBase w.pubdir) :
    trimRight w.pubdir ['/'] ++ ['*', '*'] ∈ loadIgnore w ∧
    (loadIgnore w).getLast? = some (trimRight w.pubdir ['/'] ++ ['*', '*']) := by
  have hp : filepathJoin ZSDIR ".ignore".toList = ".zazzy/.ignore".toList := by decide
  have h1 : hasPrefix w.pubdir ['.'] = false := by
    cases h : hasPrefix w.pubdir ['.'] with
    | false => rfl
    | true => exact absurd (List.isPrefixOf_iff_prefix.1 h) hdir
  have h2 : (filepathBase w.pubdir).head? ≠ some '.' := by
    intro h
    apply hbase
    cases hb : filepathBase w.pubdir with
    | nil => rw [hb] at h; simp at h
    | cons c cs =>
      rw [hb] at h
      simp at h
      subst h
      exact ⟨cs, rfl⟩
  unfold loadIgnore
  simp only [hp, hopen, h1]
  simp [h2]

/-- C8: the code returns before the step that adds the publish directory when
the ignore file cannot be opened.  With the publish directory `pub` and no file
`.zazzy/.ignore`, `loadIgnore` returns the empty list, in which the pattern
`pub**` is not; and `buildAll` then walks into the publish directory: it makes
`pub/pub` and builds `pub/a.html`.  In every world without ignore file the list
is empty.  When the file can be opened (the step is reached), the pattern is
the last of the list, for every publish directory such that neither it nor its
last element begins with a dot. -/
theorem loadIgnore_missing_file_drops_pubdir :
    loadIgnore { emptyWorld with pubdir := "pub".toList } = [] ∧
    "pub**".toList ∉ loadIgnore { emptyWorld with pubdir := "pub".toList } ∧
    buildAll { emptyWorld with pubdir := "pub".toList } allDone
        [ { path := ".".toList, err := none, isDir := true, modTime := 1 },
          { path := "pub".toList, err := none, isDir := true, modTime := 1 },
          { path := "pub/a.html".toList, err := none, isDir := false, modTime := 1 } ]
      = some [Event.mkdir "pub".toList, Event.mkdir "pub/pub".toList, Event.prehook,
          Event.build "pub/a.html".toList, Event.posthook] ∧
    (∀ w : World, w.openRead ".zazzy/.ignore".toList = none → loadIgnore w = []) ∧
    (∀ (w : World) (content : Str), w.openRead ".zazzy/.ignore".toList = some content →
      ¬ ['.'] <+: w.pubdir → ¬ ['.'] <+: filepathBase w.pubdir →
      trimRight w.pubdir ['/'] ++ ['*', '*'] ∈ loadIgnore w ∧
      (loadIgnore w).getLast? = some (trimRight w.pubdir ['/'] ++ ['*', '*'])) := by
  refine ⟨by decide, by decide, by decide, ?_, ?_⟩
  · intro w h
    have hp : filepathJoin ZSDIR ".ignore".toList = ".zazzy/.ignore".toList := by decide
    unfold loadIgnore
    simp only [hp, h]
  · intro w content hopen hdir hbase
    exact loadIgnore_appends_pubdir w content hopen hdir hbase

/-- C20: a text without open delimiter is returned as it is, with no error, in
every world and at every depth: no file is read and no command is run. -/
theorem render_plain_text (w : World) (rl : Vars → List Str → Vars × Outcome)
    (s : Str) (vars : Vars) (deep : Int) (h : ¬ delimOpen <:+: s) :
    render w rl s vars deep = (vars, Outcome.ret s none) := by
  rw [render, renderAt, renderLoop_no_open w rl _ deep _ s _ vars ((index_eq_none_iff _ _).2 h)]
  simp

/-- The test of the source, `foo bar`, and a text with close delimiters
only. -/
theorem render_plain_text_witness :
    render emptyWorld noList "foo bar".toList [("foo".toList, "bar".toList)] 1
      = ([("foo".toList, "bar".toList)], Outcome.ret "foo bar".toList none) ∧
    render emptyWorld noList "a \x7d\x7d b \x7d\x7d".toList [] 1
      = ([], Outcome.ret "a \x7d\x7d b \x7d\x7d".toList none) :=
  ⟨render_plain_text emptyWorld noList "foo bar".toList [("foo".toList, "bar".toList)] 1
      (by decide),
    render_plain_text emptyWorld noList "a \x7d\x7d b \x7d\x7d".toList [] 1 (by decide)⟩

/-- What `getVars` returns for a content split at its first delimiter, when the
header decodes. -/
theorem getVars_header (w : World) (path content : Str) (G H : Vars) (header body : Str)
    (hread : w.readFile path = .ok content)
    (hsplit : content = header ++ headerDelim ++ body)
    (hfirst : ∀ h' b', content = h' ++ headerDelim ++ b' → header.length ≤ h'.length)
    (hyaml : w.yaml header = .ok H) :
    getVars w path G = .ok
      (vset (overlay (baseVars w path G) H) "url".toList
        (trimLeft (vat (overlay (baseVars w path G) H) "url".toList) ['.', '/']), body) := by
  have hi := index_of_first_split content headerDelim header body hsplit hfirst
  have ht : content.take header.length = header := by
    rw [hsplit, List.append_assoc, List.take_left' rfl]
  have hd : content.drop (header.length + headerDelim.length) = body := by
    rw [hsplit, List.drop_left' (by simp)]
  unfold getVars
  simp only [hread, hi, ht, hd, hyaml]

/-- What the scan for the extension returns is empty, or a part read from the
reversed path put before the text already passed. -/
theorem extScan_suffix (r acc : Str) :
    ∃ t, extScan r acc = [] ∨ (t.reverse ++ acc = extScan r acc ∧ t <+: r) := by
  induction r generalizing acc with
  | nil => exact ⟨[], Or.inl rfl⟩
  | cons c cs ih =>
    unfold extScan
    by_cases h1 : c = '/'
    · exact ⟨[], Or.inl (by simp [h1])⟩
    · by_cases h2 : c = '.'
      · refine ⟨[c], Or.inr ?_⟩
        simp [h1, h2]
      · obtain ⟨t, ht⟩ := ih (c :: acc)
        refine ⟨c :: t, ?_⟩
        simp only [h1, h2, if_false]
        rcases ht with ht | ⟨ht1, ht2⟩
        · exact Or.inl ht
        · refine Or.inr ⟨?_, ?_⟩
          · rw [← ht1]; simp
          · obtain ⟨u, hu⟩ := ht2
            exact ⟨u, by simp [← hu]⟩

/-- The extension of a path is a suffix of the path. -/
theorem filepathExt_suffix (path : Str) : filepathExt path <:+ path := by
  unfold filepathExt
  obtain ⟨t, ht⟩ := extScan_suffix path.reverse []
  rcases ht with ht | ⟨ht1, ht2⟩
  · rw [ht]; exact List.nil_suffix
  · rw [← ht1]
    simp only [List.append_nil]
    have := List.reverse_suffix.2 ht2
    simpa using this

/-- The path without its extension. -/
theorem take_stem (path stem : Str) (h : path = stem ++ filepathExt path) :
    path.take (path.length - (filepathExt path).length) = stem := by
  generalize filepathExt path = e at h
  subst h
  simp

/-- C11: when the header sets `url` and neither the header nor the globals set
`output`, the output returned by `getVars` is the publish directory joined
with the path of the document, its extension replaced by `.html`: the url of
the header plays no part in it. -/
theorem getVars_output_pinned (w : World) (path content : Str) (G H : Vars)
    (header body stem u : Str)
    (hread : w.readFile path = .ok content)
    (hsplit : content = header ++ headerDelim ++ body)
    (hfirst : ∀ h' b', content = h' ++ headerDelim ++ b' → header.length ≤ h'.length)
    (hyaml : w.yaml header = .ok H)
    (hstem : path = stem ++ filepathExt path)
    (_hurl : vget H "url".toList = some u)
    (hHo : vget H "output".toList = none) (hGo : vget G "output".toList = none) :
    ∃ v, getVars w path G = .ok (v, body) ∧
      vget v "output".toList = some (filepathJoin w.pubdir (stem ++ ".html".toList)) := by
  refine ⟨_, getVars_header w path content G H header body hread hsplit hfirst hyaml, ?_⟩
  rw [vget_vset, if_neg (by decide), vget_overlay, vget_baseVars, hHo, hGo]
  have : vget (specDefaults w path) "output".toList
      = some (filepathJoin w.pubdir
          (path.take (path.length - (filepathExt path).length) ++ ".html".toList)) := rfl
  rw [this, take_stem path stem hstem]
  rfl

/-- The second document of the test `TestVars`: the header sets the url
`example.com/foo.html`, and the output is `.pub/test.html`. -/
theorem getVars_output_pinned_witness :
    ∃ v, getVars urlWorld "test.md".toList [("baz".toList, "123".toList)]
        = .ok (v, "Hello\n".toList) ∧
      vget v "output".toList = some ".pub/test.html".toList :=
  getVars_output_pinned urlWorld "test.md".toList
    "\nurl: \"example.com/foo.html\"\n---\nHello\n".toList
    [("baz".toList, "123".toList)] [("url".toList, "example.com/foo.html".toList)]
    "\nurl: \"example.com/foo.html\"".toList "Hello\n".toList "test".toList
    "example.com/foo.html".toList rfl (by decide)
    (fun h' b' e => index_some_le _ _ 28 (by decide) h' b' e) rfl (by decide) (by decide)
    (by decide) (by decide)

/-- Trimming on the left removes a run of characters of the cutset, and what
is left does not begin with one. -/
theorem trimLeft_spec (s cutset : Str) :
    ∃ run, s = run ++ trimLeft s cutset ∧ (∀ c ∈ run, c ∈ cutset) ∧
      ∀ c, (trimLeft s cutset).head? = some c → c ∉ cutset := by
  induction s with
  | nil => exact ⟨[], by simp [trimLeft], by simp, by simp [trimLeft]⟩
  | cons a as ih =>
    by_cases ha : a ∈ cutset
    · obtain ⟨run, h1, h2, h3⟩ := ih
      have e : trimLeft (a :: as) cutset = trimLeft as cutset := by
        simp [trimLeft, List.dropWhile, ha]
      rw [e]
      refine ⟨a :: run, by rw [List.cons_append, ← h1], ?_, h3⟩
      intro c hc
      rcases List.mem_cons.1 hc with hc | hc
      · rw [hc]; exact ha
      · exact h2 c hc
    · have e : trimLeft (a :: as) cutset = a :: as := by
        simp [trimLeft, List.dropWhile, ha]
      rw [e]
      refine ⟨[], by simp, by simp, ?_⟩
      intro c hc
      simp at hc
      rw [← hc]; exact ha

/-- The url before trimming, as `getVars` computes it. -/
theorem vat_url_layered (w : World) (path : Str) (G H : Vars) :
    vat (overlay (baseVars w path G) H) "url".toList = layeredUrl path G H := by
  unfold vat layeredUrl
  rw [vget_overlay, vget_baseVars]
  have hd : vget (specDefaults w path) "url".toList
      = some (path.take (path.length - (filepathExt path).length) ++ ".html".toList) := rfl
  rw [hd]
  cases vget H "url".toList with
  | some u => rfl
  | none =>
    cases vget G "url".toList with
    | some u => rfl
    | none => rfl

/-- C12: for a document whose header decodes, the url returned by `getVars` is
the layered url (header, else globals, else the path with the extension
`.html`) without its longest leading run of dots and slashes: it does not begin
with a dot or a slash, and a layered url that begins with neither is returned
as it is. -/
theorem getVars_url_trimmed (w : World) (path content : Str) (G H : Vars) (header body : Str)
    (hread : w.readFile path = .ok content)
    (hsplit : content = header ++ headerDelim ++ body)
    (hfirst : ∀ h' b', content = h' ++ headerDelim ++ b' → header.length ≤ h'.length)
    (hyaml : w.yaml header = .ok H) :
    ∃ v url, getVars w path G = .ok (v, body) ∧ vget v "url".toList = some url ∧
      (∃ run, layeredUrl path G H = run ++ url ∧ ∀ c ∈ run, c = '.' ∨ c = '/') ∧
      url.head? ≠ some '.' ∧ url.head? ≠ some '/' ∧
      ((layeredUrl path G H).head? ≠ some '.' → (layeredUrl path G H).head? ≠ some '/' →
        url = layeredUrl path G H) := by
  obtain ⟨run, h1, h2, h3⟩ := trimLeft_spec (layeredUrl path G H) ['.', '/']
  refine ⟨_, trimLeft (layeredUrl path G H) ['.', '/'],
    getVars_header w path content G H header body hread hsplit hfirst hyaml, ?_, ?_, ?_, ?_, ?_⟩
  · rw [vget_vset, if_pos rfl, vat_url_layered]
  · exact ⟨run, h1, fun c hc => by simpa using h2 c hc⟩
  · intro h; exact h3 _ h (by simp)
  · intro h; exact h3 _ h (by simp)
  · intro hd hs
    cases run with
    | nil => simpa using h1.symm
    | cons c cs =>
      exfalso
      have hc : c = '.' ∨ c = '/' := by simpa using h2 c (by simp)
      rw [h1] at hd hs
      rcases hc with hc | hc
      · exact hd (by simp [hc])
      · exact hs (by simp [hc])

/-- The two documents of the test `TestVars`: the url `example.com/foo.html`
of the header is returned as it is, and without url in the header the url of
`test.md` is `test.html`. -/
theorem getVars_url_trimmed_witness :
    (∃ v, getVars urlWorld "test.md".toList [("baz".toList, "123".toList)]
        = .ok (v, "Hello\n".toList) ∧
      vget v "url".toList = some "example.com/foo.html".toList) ∧
    (∃ v, getVars docWorld "test.md".toList [("baz".toList, "123".toList)]
        = .ok (v, "Some content in markdown\n".toList) ∧
      vget v "url".toList = some "test.html".toList) := by
  constructor
  · obtain ⟨v, url, hv, hu, _, _, _, hsame⟩ := getVars_url_trimmed urlWorld "test.md".toList
      "\nurl: \"example.com/foo.html\"\n---\nHello\n".toList
      [("baz".toList, "123".toList)] [("url".toList, "example.com/foo.html".toList)]
      "\nurl: \"example.com/foo.html\"".toList "Hello\n".toList rfl (by decide)
      (fun h' b' e => index_some_le _ _ 28 (by decide) h' b' e) rfl
    refine ⟨v, hv, ?_⟩
    rw [hu, hsame (by decide) (by decide)]
    rfl
  · obtain ⟨v, url, hv, hu, _, _, _, hsame⟩ := getVars_url_trimmed docWorld "test.md".toList
      "\nfoo: bar\ntitle: Hello, world!\n---\nSome content in markdown\n".toList
      [("baz".toList, "123".toList)]
      [("foo".toList, "bar".toList), ("title".toList, "Hello, world!".toList)]
      "\nfoo: bar\ntitle: Hello, world!".toList "Some content in markdown\n".toList
      rfl (by decide) (fun h' b' e => index_some_le _ _ 30 (by decide) h' b' e) rfl
    refine ⟨v, hv, ?_⟩
    rw [hu, hsame (by decide) (by decide)]
    rfl

/-- The binding of a key is among the entries of the map. -/
theorem mem_ventries_of_vget (vars : Vars) (k v : Str) (h : vget vars k = some v) :
    (k, v) ∈ ventries vars := by
  induction vars with
  | nil => simp [vget] at h
  | cons p rest ih =>
    obtain ⟨k0, v0⟩ := p
    unfold ventries
    by_cases hk : k = k0
    · subst hk
      have : v0 = v := by simpa [vget, List.lookup] using h
      subst this
      exact List.mem_cons_self _ _
    · have hb : (k == k0) = false := beq_eq_false_iff_ne.2 hk
      have h2 : vget rest k = some v := by
        simpa only [vget, List.lookup, hb] using h
      refine List.mem_cons_of_mem _ (List.mem_filter.2 ⟨ih h2, ?_⟩)
      simpa using hk

/-- C19: the environment `run` gives to the command has the entry `ZS=` with
the path of the running tool, the entry `ZS_OUTDIR=` with the publish
directory, every entry of the environment of the tool and, for every key `k`
of the variables with value `v`, the entry `ZS_` + `k` in capitals + `=` + `v`;
the command is run with that environment, its output is returned as it is, and
when it fails `run` returns the empty string with the error.  The test of the
source, `sh -c 'echo $ZS_FOO'` with `foo = bar`, returns `bar` and a
newline. -/
theorem run_environment :
    (∀ (w : World) (vars : Vars) (cmd : Str) (args : List Str),
      "ZS=".toList ++ w.arg0 ∈ runEnv w vars ∧
      "ZS_OUTDIR=".toList ++ w.pubdir ∈ runEnv w vars ∧
      (∀ e ∈ w.environ, e ∈ runEnv w vars) ∧
      (∀ k v, vget vars k = some v →
        "ZS_".toList ++ toUpper w.ct k ++ '=' :: v ∈ runEnv w vars) ∧
      (∀ out, w.exec cmd args (runEnv w vars) = .ok out →
        run w vars cmd args = Outcome.ret out none) ∧
      (∀ err, w.exec cmd args (runEnv w vars) = .error err →
        run w vars cmd args = Outcome.ret [] (some err))) ∧
    run pluginWorld [("foo".toList, "bar".toList)] "sh".toList
        ["-c".toList, "echo $ZS_FOO".toList] = Outcome.ret "bar\n".toList none := by
  refine ⟨?_, by decide⟩
  intro w vars cmd args
  refine ⟨?_, ?_, ?_, ?_, ?_, ?_⟩
  · simp [runEnv]
  · simp [runEnv]
  · intro e he
    simp [runEnv, he]
  · intro k v hkv
    have hm := mem_ventries_of_vget vars k v hkv
    unfold runEnv
    refine List.mem_append_right _ (List.mem_map.2 ⟨(k, v), hm, rfl⟩)
  · intro out h
    simp only [run, h]
  · intro err h
    simp only [run, h]

/-- C15: at depth 11 the text `x{{p.html}}y` does not give an output that
begins with `x` and the content of the partial: `render` returns the raw
content of the partial alone, the text before and after the macro is lost.  So
it is at every depth greater than 10, for every text whose first macro is a
partial that is found: the `return` of the cap leaves `render`, not the
include. -/
theorem render_cap_drops_text :
    partialWorld.readFile ".zazzy/p.html".toList = .ok "P\x7b\x7bfoo\x7d\x7d".toList ∧
    (render partialWorld noList "x\x7b\x7bp.html\x7d\x7dy".toList
        [("foo".toList, "bar".toList)] 11).2
      = Outcome.ret "P\x7b\x7bfoo\x7d\x7d".toList none ∧
    (¬ "xP\x7b\x7bfoo\x7d\x7d".toList <+: "P\x7b\x7bfoo\x7d\x7d".toList) ∧
    (∀ (w : World) (rl : Vars → List Str → Vars × Outcome) (s : Str) (vars : Vars)
      (deep : Int) (from_ to_ : Nat) (m0 : Str) (margs : List Str) (c : Str),
      deep > 10 → index s delimOpen = some from_ → index s delimClose = some to_ →
      from_ + 2 ≤ to_ → fields ((s.take to_).drop (from_ + 2)) = m0 :: margs →
      m0 ≠ "renderlist".toList → m0 ≠ "favicon".toList →
      (filepathExt m0 = ".html".toList ∨ filepathExt m0 = ".md".toList) →
      w.readFile (filepathJoin ZSDIR m0) = .ok c →
      render w rl s vars deep = (vars, Outcome.ret c none)) := by
  refine ⟨rfl, by decide, by decide, ?_⟩
  intro w rl s vars deep from_ to_ m0 margs c hd ho hc hle hf h1 h2 h3 hr
  have hlt : ¬ to_ < from_ + delimOpen.length := by
    simp only [delimOpen, List.length_cons, List.length_nil]; omega
  have hf' : fields ((s.take to_).drop (from_ + delimOpen.length)) = m0 :: margs := hf
  rw [render, renderAt, renderLoop]
  simp only [ho, hc, hlt, if_false, hf', h1, h2, h3, if_true, hr, hd]

/-- What the loop of `render` does after a plugin: the output of the plugin, or
nothing, is written and the loop goes on. -/
theorem afterCall_run (w : World) (vars : Vars) (cmd : Str) (args : List Str) (out : Str)
    (k : Str → Vars → Vars × Outcome) :
    afterCall (vars, run w vars cmd args) out k = k (out ++ pluginText w vars cmd args) vars := by
  unfold run pluginText
  cases w.exec cmd args (runEnv w vars) with
  | ok res => rfl
  | error e => simp [afterCall]

/-- C16: the macro `foo.html arg` has two fields, names no partial that is
found and is not `renderlist` or `favicon`; `render` does not run it as a
plugin, it writes the value of the variable `foo.html`.  After the failed read
of the partial the `fallthrough` enters the branch of the variables without the
test that the macro has one field.  For a command without the extension
`.html` or `.md`, and for a missing partial that is no key of the variables,
the macro is replaced by the output of the plugin, or by nothing when the
plugin fails, the text before it is kept and the loop goes on with the text
after it; the two plugin tests of the source are part of the statement. -/
theorem render_plugin_fallthrough :
    fields "foo.html arg".toList = ["foo.html".toList, "arg".toList] ∧
    pluginWorld.readFile (filepathJoin ZSDIR "foo.html".toList)
      = .error "no such file or directory".toList ∧
    pluginText pluginWorld [("foo.html".toList, "V".toList)] "foo.html".toList ["arg".toList]
      = [] ∧
    (render pluginWorld noList "\x7b\x7bfoo.html arg\x7d\x7d".toList
        [("foo.html".toList, "V".toList)] 1).2 = Outcome.ret "V".toList none ∧
    (∀ (w : World) (rl : Vars → List Str → Vars × Outcome)
      (recur : Str → Vars → Vars × Outcome) (deep : Int) (fuel : Nat) (s out : Str)
      (vars : Vars) (from_ to_ : Nat) (m0 : Str) (margs : List Str),
      index s delimOpen = some from_ → index s delimClose = some to_ →
      from_ + 2 ≤ to_ → fields ((s.take to_).drop (from_ + 2)) = m0 :: margs →
      m0 ≠ "renderlist".toList → m0 ≠ "favicon".toList →
      filepathExt m0 ≠ ".html".toList → filepathExt m0 ≠ ".md".toList →
      (margs = [] → vget vars m0 = none) →
      renderLoop w rl recur deep (fuel + 1) s out vars
        = renderLoop w rl recur deep fuel (s.drop (to_ + 2))
            (out ++ s.take from_ ++ pluginText w vars m0 margs) vars) ∧
    (∀ (w : World) (rl : Vars → List Str → Vars × Outcome)
      (recur : Str → Vars → Vars × Outcome) (deep : Int) (fuel : Nat) (s out : Str)
      (vars : Vars) (from_ to_ : Nat) (m0 : Str) (margs : List Str) (err : Str),
      index s delimOpen = some from_ → index s delimClose = some to_ →
      from_ + 2 ≤ to_ → fields ((s.take to_).drop (from_ + 2)) = m0 :: margs →
      m0 ≠ "renderlist".toList → m0 ≠ "favicon".toList →
      w.readFile (filepathJoin ZSDIR m0) = .error err → vget vars m0 = none →
      renderLoop w rl recur deep (fuel + 1) s out vars
        = renderLoop w rl recur deep fuel (s.drop (to_ + 2))
            (out ++ s.take from_ ++ pluginText w vars m0 margs) vars) ∧
    (render pluginWorld noList "a \x7b\x7bprintf short\x7d\x7d text".toList
        [("foo".toList, "bar".toList)] 1).2 = Outcome.ret "a short text".toList none ∧
    (render pluginWorld noList "\x7b\x7bprintf Hello\x7d\x7d x\x7b\x7bfoo\x7d\x7dz".toList
        [("foo".toList, "bar".toList)] 1).2 = Outcome.ret "Hello xbarz".toList none := by
  refine ⟨by decide, rfl, by decide, by decide, ?_, ?_, by decide, by decide⟩
  · intro w rl recur deep fuel s out vars from_ to_ m0 margs ho hc hle hf h1 h2 h3 h4 hv
    have hlt : ¬ to_ < from_ + delimOpen.length := by
      simp only [delimOpen, List.length_cons, List.length_nil]; omega
    have hf' : fields ((s.take to_).drop (from_ + delimOpen.length)) = m0 :: margs := hf
    have hd : to_ + delimClose.length = to_ + 2 := rfl
    rw [renderLoop]
    simp only [ho, hc, hlt, if_false, hf', h1, h2, h3, h4, false_or, hd, afterCall_run]
    cases margs with
    | nil => simp only [hv rfl, List.length_nil, Nat.zero_add, if_true]
    | cons a as => simp
  · intro w rl recur deep fuel s out vars from_ to_ m0 margs err ho hc hle hf h1 h2 hr hv
    have hlt : ¬ to_ < from_ + delimOpen.length := by
      simp only [delimOpen, List.length_cons, List.length_nil]; omega
    have hf' : fields ((s.take to_).drop (from_ + delimOpen.length)) = m0 :: margs := hf
    have hd : to_ + delimClose.length = to_ + 2 := rfl
    rw [renderLoop]
    simp only [ho, hc, hlt, if_false, hf', h1, h2, hd, afterCall_run, hv, hr]
    by_cases hp : filepathExt m0 = ".html".toList ∨ filepathExt m0 = ".md".toList
    · simp only [hp, if_true]
    · simp only [hp, if_false]
      split <;> rfl

/-- A text without the separator is one piece. -/
theorem splitChar_of_not_mem (sep : Char) (s : Str) (h : sep ∉ s) : splitChar sep s = [s] := by
  induction s with
  | nil => rfl
  | cons c cs ih =>
    have hc : c ≠ sep := fun e => h (by simp [e])
    have hcs : sep ∉ cs := fun e => h (List.mem_cons_of_mem _ e)
    simp [splitChar, ih hcs, hc]

/-- The pieces of a text never form the empty list. -/
theorem splitChar_ne_nil (sep : Char) (s : Str) : splitChar sep s ≠ [] := by
  cases s with
  | nil => simp [splitChar]
  | cons c cs =>
    unfold splitChar
    split
    · simp
    · split <;> simp

/-- The first piece of a text is what is before its first separator. -/
theorem splitChar_append (sep : Char) (name rest : Str) (h : sep ∉ name) :
    splitChar sep (name ++ sep :: rest) = name :: splitChar sep rest := by
  induction name with
  | nil =>
    cases hr : splitChar sep rest with
    | nil => exact absurd hr (splitChar_ne_nil sep rest)
    | cons x xs => simp [splitChar, hr]
  | cons c cs ih =>
    have hc : c ≠ sep := fun e => h (by simp [e])
    have hcs : sep ∉ cs := fun e => h (List.mem_cons_of_mem _ e)
    simp [splitChar, ih hcs, hc]

/-- An entry with `=` is its name, `=`, and a rest. -/
theorem entry_split (e : Str) (h : '=' ∈ e) :
    ∃ rest, e = envName e ++ '=' :: rest ∧ '=' ∉ envName e := by
  induction e with
  | nil => simp at h
  | cons c cs ih =>
    by_cases hc : c = '='
    · exact ⟨cs, by simp [envName, List.takeWhile, hc], by simp [envName, List.takeWhile, hc]⟩
    · have hcs : '=' ∈ cs := by
        rcases List.mem_cons.1 h with h | h
        · exact absurd h.symm hc
        · exact h
      obtain ⟨rest, h1, h2⟩ := ih hcs
      have e1 : envName (c :: cs) = c :: envName cs := by
        simp [envName, List.takeWhile, hc]
      refine ⟨rest, ?_, ?_⟩
      · rw [e1, List.cons_append, ← h1]
      · rw [e1]
        intro hm
        rcases List.mem_cons.1 hm with hm | hm
        · exact hc hm.symm
        · exact h2 hm

/-- The name of an entry `name=value`. -/
theorem envName_append (name value : Str) (h : '=' ∉ name) :
    envName (name ++ '=' :: value) = name := by
  induction name with
  | nil => simp [envName, List.takeWhile]
  | cons c cs ih =>
    have hc : c ≠ '=' := fun e => h (by simp [e])
    have hcs : '=' ∉ cs := fun e => h (List.mem_cons_of_mem _ e)
    have := ih hcs
    simp only [envName, decide_not] at this ⊢
    simp [List.takeWhile, hc, this]

/-- One turn of the loop of `globals` on an entry with `=`: an entry of prefix
`ZS_` writes the text between its first and its second `=` at its key, any
other entry writes nothing. -/
theorem globalsLoop_cons (ct : CaseTables) (e : Str) (rest : List Str) (vars : Vars)
    (h : '=' ∈ e) :
    ∃ p1 ps, splitChar '=' e = envName e :: p1 :: ps ∧
      globalsLoop ct (e :: rest) vars =
        if hasPrefix (envName e) "ZS_".toList then
          globalsLoop ct rest (vset vars (toLower ct ((envName e).drop 3)) p1)
        else globalsLoop ct rest vars := by
  obtain ⟨r, h1, h2⟩ := entry_split e h
  have hs : splitChar '=' e = envName e :: splitChar '=' r := by
    conv_lhs => rw [h1]
    exact splitChar_append '=' _ _ h2
  cases hr : splitChar '=' r with
  | nil => exact absurd hr (splitChar_ne_nil _ _)
  | cons p1 ps =>
    rw [hr] at hs
    refine ⟨p1, ps, hs, ?_⟩
    rw [globalsLoop]
    simp only [hs]

/-- The loop of `globals` does not panic on entries that all have `=`. -/
theorem globalsLoop_some (ct : CaseTables) (l : List Str) (vars : Vars)
    (h : ∀ e ∈ l, '=' ∈ e) : ∃ vars', globalsLoop ct l vars = some vars' := by
  induction l generalizing vars with
  | nil => exact ⟨vars, rfl⟩
  | cons e rest ih =>
    obtain ⟨p1, ps, _, h2⟩ := globalsLoop_cons ct e rest vars (h e (by simp))
    rw [h2]
    have hr : ∀ x ∈ rest, '=' ∈ x := fun x hx => h x (List.mem_cons_of_mem _ hx)
    split
    · exact ih _ hr
    · exact ih _ hr

/-- Where the binding of a key comes from after the loop of `globals`: it was
there before, or an entry of prefix `ZS_` with that key wrote it. -/
theorem globalsLoop_source (ct : CaseTables) (l : List Str) (vars vars' : Vars)
    (h : ∀ e ∈ l, '=' ∈ e) (hl : globalsLoop ct l vars = some vars') (k x : Str)
    (hk : vget vars' k = some x) :
    vget vars k = some x ∨
      ∃ e ∈ l, ∃ p1 ps, splitChar '=' e = envName e :: p1 :: ps ∧
        hasPrefix (envName e) "ZS_".toList = true ∧
        k = toLower ct ((envName e).drop 3) ∧ x = p1 := by
  induction l generalizing vars with
  | nil =>
    simp only [globalsLoop, Option.some.injEq] at hl
    subst hl
    exact Or.inl hk
  | cons e rest ih =>
    obtain ⟨p1, ps, h1, h2⟩ := globalsLoop_cons ct e rest vars (h e (by simp))
    have hr : ∀ x ∈ rest, '=' ∈ x := fun x hx => h x (List.mem_cons_of_mem _ hx)
    rw [h2] at hl
    by_cases hp : hasPrefix (envName e) "ZS_".toList = true
    · rw [if_pos hp] at hl
      rcases ih _ hr hl with h3 | ⟨e', he', q1, qs, h4⟩
      · rw [vget_vset] at h3
        by_cases hkk : k = toLower ct ((envName e).drop 3)
        · rw [if_pos hkk] at h3
          exact Or.inr ⟨e, by simp, p1, ps, h1, hp, hkk, by simpa using h3.symm⟩
        · rw [if_neg hkk] at h3
          exact Or.inl h3
      · exact Or.inr ⟨e', List.mem_cons_of_mem _ he', q1, qs, h4⟩
    · rw [if_neg hp] at hl
      rcases ih _ hr hl with h3 | ⟨e', he', q1, qs, h4⟩
      · exact Or.inl h3
      · exact Or.inr ⟨e', List.mem_cons_of_mem _ he', q1, qs, h4⟩

/-- The loop of `globals` keeps the binding of a key that no entry of prefix
`ZS_` has. -/
theorem globalsLoop_keeps (ct : CaseTables) (l : List Str) (vars vars' : Vars)
    (h : ∀ e ∈ l, '=' ∈ e) (hl : globalsLoop ct l vars = some vars') (k : Str)
    (hk : ∀ e ∈ l, hasPrefix (envName e) "ZS_".toList = true →
      toLower ct ((envName e).drop 3) ≠ k) :
    vget vars' k = vget vars k := by
  induction l generalizing vars with
  | nil =>
    simp only [globalsLoop, Option.some.injEq] at hl
    subst hl
    rfl
  | cons e rest ih =>
    obtain ⟨p1, ps, _, h2⟩ := globalsLoop_cons ct e rest vars (h e (by simp))
    have hr : ∀ x ∈ rest, '=' ∈ x := fun x hx => h x (List.mem_cons_of_mem _ hx)
    have hkr : ∀ x ∈ rest, hasPrefix (envName x) "ZS_".toList = true →
        toLower ct ((envName x).drop 3) ≠ k := fun x hx => hk x (List.mem_cons_of_mem _ hx)
    rw [h2] at hl
    by_cases hp : hasPrefix (envName e) "ZS_".toList = true
    · rw [if_pos hp] at hl
      rw [ih _ hr hl hkr, vget_vset, if_neg (fun e' => hk e (by simp) hp e'.symm)]
    · rw [if_neg hp] at hl
      exact ih _ hr hl hkr

/-- The loop of `globals` over two lists, one after the other. -/
theorem globalsLoop_append (ct : CaseTables) (l1 l2 : List Str) (vars : Vars)
    (h : ∀ e ∈ l1, '=' ∈ e) :
    globalsLoop ct (l1 ++ l2) vars = (globalsLoop ct l1 vars).bind (globalsLoop ct l2) := by
  induction l1 generalizing vars with
  | nil => rfl
  | cons e rest ih =>
    have hr : ∀ x ∈ rest, '=' ∈ x := fun x hx => h x (List.mem_cons_of_mem _ hx)
    obtain ⟨p1, ps, _, h2⟩ := globalsLoop_cons ct e rest vars (h e (by simp))
    obtain ⟨q1, qs, _, h3⟩ := globalsLoop_cons ct e (rest ++ l2) vars (h e (by simp))
    rw [List.cons_append, h3, h2]
    have hpq : p1 = q1 := by
      rename_i a b
      rw [a] at b
      simp at b
      exact b.1
    subst hpq
    split
    · exact ih _ hr
    · exact ih _ hr

/-- The first piece of a text split at `=` is its part before the first `=`. -/
theorem splitChar_head (s : Str) : ∃ ps, splitChar '=' s = envName s :: ps := by
  by_cases h : '=' ∈ s
  · obtain ⟨r, h1, h2⟩ := entry_split s h
    refine ⟨splitChar '=' r, ?_⟩
    conv_lhs => rw [h1]
    exact splitChar_append '=' _ _ h2
  · refine ⟨[], ?_⟩
    rw [splitChar_of_not_mem '=' s h]
    have : envName s = s := by
      unfold envName
      rw [List.takeWhile_eq_self_iff]
      intro c hc
      simp only [ne_eq, decide_not, Bool.not_eq_true', decide_eq_false_iff_not]
      intro e
      exact h (e ▸ hc)
    rw [this]

/-- What `globals` stores for an entry of prefix `ZS_`: in an environment
whose entries all have `=` and whose names of prefix `ZS_` are distinct when
put in lower case, the entry `ZS_` + name + `=` + value gives, at the key that
is the name in lower case, the part of the value before its first `=` (unless
that part is empty and the key is `favicondir`).  Every key of the map but
`favicondir` comes from an entry of prefix `ZS_`, and `favicondir` is
`/img/favicons` when every entry with that key has an empty value. -/
theorem globals_first_piece (ct : CaseTables) (environ : List Str) (pubdir : Str)
    (hwf : ∀ e ∈ environ, '=' ∈ e)
    (hdist : environ.Pairwise (fun a b =>
      hasPrefix (envName a) "ZS_".toList = true → hasPrefix (envName b) "ZS_".toList = true →
        toLower ct (envName a) ≠ toLower ct (envName b))) :
    ∃ vars pubdir', globals ct environ pubdir = some (vars, pubdir') ∧
      (∀ name value, "ZS_".toList ++ name ++ '=' :: value ∈ environ →
        '=' ∉ name →
        (toLower ct name = "favicondir".toList → envName value ≠ []) →
        vget vars (toLower ct name) = some (envName value)) ∧
      (∀ k x, vget vars k = some x → k = "favicondir".toList ∨
        ∃ e ∈ environ, hasPrefix (envName e) "ZS_".toList = true ∧
          k = toLower ct ((envName e).drop 3)) ∧
      ((∀ name value, name ++ '=' :: value ∈ environ → '=' ∉ name →
          hasPrefix name "ZS_".toList = true →
          toLower ct (name.drop 3) = "favicondir".toList → value = []) →
        vget vars "favicondir".toList = some "/img/favicons".toList) := by
  obtain ⟨lv, hlv⟩ := globalsLoop_some ct environ [] hwf
  have hg : globals ct environ pubdir = some
      (if (vat lv "favicondir".toList).length = 0 then
          vset lv "favicondir".toList "/img/favicons".toList else lv,
       if (vat lv "pubdir".toList).length ≠ 0 then vat lv "pubdir".toList else pubdir) := by
    simp only [globals, hlv]
  refine ⟨_, _, hg, ?_, ?_, ?_⟩
  · intro name value hmem hn hfav
    obtain ⟨l1, l2, hl⟩ := List.append_of_mem hmem
    have hwf1 : ∀ e ∈ l1, '=' ∈ e := fun e he => hwf e (by rw [hl]; simp [he])
    have hwf2 : ∀ e ∈ l2, '=' ∈ e := fun e he => hwf e (by rw [hl]; simp [he])
    have hname : '=' ∉ "ZS_".toList ++ name := by
      intro hm
      rcases List.mem_append.1 hm with hm | hm
      · exact absurd hm (by decide)
      · exact hn hm
    have hen : envName ("ZS_".toList ++ name ++ '=' :: value) = "ZS_".toList ++ name :=
      envName_append _ _ hname
    obtain ⟨qs, hqs⟩ := splitChar_head value
    have hsp : splitChar '=' ("ZS_".toList ++ name ++ '=' :: value)
        = ("ZS_".toList ++ name) :: envName value :: qs := by
      rw [splitChar_append '=' _ _ hname, hqs]
    have hpre : hasPrefix ("ZS_".toList ++ name) "ZS_".toList = true := by
      simp [hasPrefix]
    obtain ⟨v1, hv1⟩ := globalsLoop_some ct l1 [] hwf1
    have hstep : globalsLoop ct environ [] =
        globalsLoop ct l2 (vset v1 (toLower ct name) (envName value)) := by
      rw [hl, globalsLoop_append ct l1 _ [] hwf1, hv1]
      obtain ⟨p1, ps, h1, h2⟩ := globalsLoop_cons ct ("ZS_".toList ++ name ++ '=' :: value) l2 v1
        (by simp)
      rw [Option.bind, h2, hen]
      rw [hsp, hen] at h1
      have hp1 : envName value = p1 := by
        simp only [List.cons.injEq, true_and] at h1
        exact h1.1
      rw [← hp1]
      rw [if_pos hpre]
      have hdrop : ("ZS_".toList ++ name).drop 3 = name := rfl
      rw [hdrop]
    rw [hstep] at hlv
    have hpw : ∀ e2 ∈ l2, hasPrefix (envName e2) "ZS_".toList = true →
        toLower ct ("ZS_".toList ++ name) ≠ toLower ct (envName e2) := by
      rw [hl, List.pairwise_append] at hdist
      have := (List.pairwise_cons.1 hdist.2.1).1
      intro e2 he2 hp2
      rw [← hen]
      exact this e2 he2 (by rw [hen]; exact hpre) hp2
    have hkeep := globalsLoop_keeps ct l2 _ lv hwf2 hlv (toLower ct name) (by
      intro e2 he2 hp2 heq
      apply hpw e2 he2 hp2
      have hsplit : envName e2 = "ZS_".toList ++ (envName e2).drop 3 := by
        obtain ⟨t, ht⟩ := List.isPrefixOf_iff_prefix.1 hp2
        rw [← ht]; rfl
      rw [hsplit]
      simp only [toLower, List.map_append] at heq ⊢
      rw [heq])
    rw [vget_vset, if_pos rfl] at hkeep
    by_cases hf : (vat lv "favicondir".toList).length = 0
    · rw [if_pos hf, vget_vset]
      by_cases hk : toLower ct name = "favicondir".toList
      · exfalso
        have : vat lv "favicondir".toList = envName value := by
          rw [← hk]; simp [vat, hkeep]
        rw [this] at hf
        exact hfav hk (List.length_eq_zero.1 hf)
      · rw [if_neg hk]; exact hkeep
    · rw [if_neg hf]; exact hkeep
  · intro k x hk
    have hsrc : vget lv k = some x → ∃ e ∈ environ, hasPrefix (envName e) "ZS_".toList = true ∧
        k = toLower ct ((envName e).drop 3) := by
      intro h
      rcases globalsLoop_source ct environ [] lv hwf hlv k x h with h1 | ⟨e, he, _, _, _, h3, h4, _⟩
      · simp [vget] at h1
      · exact ⟨e, he, h3, h4⟩
    by_cases hf : (vat lv "favicondir".toList).length = 0
    · rw [if_pos hf, vget_vset] at hk
      by_cases hkf : k = "favicondir".toList
      · exact Or.inl hkf
      · rw [if_neg hkf] at hk
        exact Or.inr (hsrc hk)
    · rw [if_neg hf] at hk
      exact Or.inr (hsrc hk)
  · intro hempty
    have hf : (vat lv "favicondir".toList).length = 0 := by
      cases hx : vget lv "favicondir".toList with
      | none => rw [vat, hx]; rfl
      | some x =>
        rcases globalsLoop_source ct environ [] lv hwf hlv _ x hx with
          h1 | ⟨e, he, p1, ps, h2, h3, h4, h5⟩
        · simp [vget] at h1
        · obtain ⟨rest, hr1, hr2⟩ := entry_split e (hwf e he)
          have hrest : rest = [] :=
            hempty (envName e) rest (by rw [← hr1]; exact he) hr2 h3 h4.symm
          subst hrest
          have hs : splitChar '=' e = [envName e, []] := by
            conv_lhs => rw [hr1]
            rw [splitChar_append '=' _ _ hr2]
            rfl
          rw [hs] at h2
          have : p1 = [] := by
            simp only [List.cons.injEq, true_and] at h2
            exact h2.1.symm
          rw [vat, hx, h5, this]; rfl
    rw [if_pos hf, vget_vset, if_pos rfl]

/-- C18: the code keeps of a value only its part before the first `=`.  With
the one entry `ZS_TITLE=a=b`, `globals` returns the map in which `title` is
`a`, not `a=b`.  In general, in an environment whose entries all have `=` and
whose names of prefix `ZS_` are distinct when put in lower case, `globals`
returns a map, and of an entry `ZS_` + name + `=` + v1 + `=` + v2 (no `=` in
the name nor in v1; v1 not empty when the key is `favicondir`) the value at
the key, the name in lower case, is v1 and not v1 + `=` + v2; the value of an
entry whose value has no `=` is kept whole, as claimed. -/
theorem globals_cuts_value :
    globals asciiCase ["ZS_TITLE=a=b".toList] DFTPUBDIR
      = some ([("favicondir".toList, "/img/favicons".toList), ("title".toList, "a".toList)],
          DFTPUBDIR) ∧
    (∀ (ct : CaseTables) (environ : List Str) (pubdir : Str),
      (∀ e ∈ environ, '=' ∈ e) →
      environ.Pairwise (fun a b =>
        hasPrefix (envName a) "ZS_".toList = true → hasPrefix (envName b) "ZS_".toList = true →
          toLower ct (envName a) ≠ toLower ct (envName b)) →
      ∃ vars pubdir', globals ct environ pubdir = some (vars, pubdir') ∧
        (∀ name v1 v2, "ZS_".toList ++ name ++ '=' :: (v1 ++ '=' :: v2) ∈ environ →
          '=' ∉ name → '=' ∉ v1 →
          (toLower ct name = "favicondir".toList → v1 ≠ []) →
          vget vars (toLower ct name) = some v1 ∧
          vget vars (toLower ct name) ≠ some (v1 ++ '=' :: v2)) ∧
        (∀ name value, "ZS_".toList ++ name ++ '=' :: value ∈ environ →
          '=' ∉ name → '=' ∉ value →
          (toLower ct name = "favicondir".toList → value ≠ []) →
          vget vars (toLower ct name) = some value)) := by
  refine ⟨by decide, ?_⟩
  intro ct environ pubdir hwf hdist
  obtain ⟨vars, pubdir', h1, h2, _, _⟩ := globals_first_piece ct environ pubdir hwf hdist
  refine ⟨vars, pubdir', h1, ?_, ?_⟩
  · intro name v1 v2 hmem hn hv hfav
    have hen : envName (v1 ++ '=' :: v2) = v1 := envName_append v1 v2 hv
    have := h2 name _ hmem hn (by rw [hen]; exact hfav)
    rw [hen] at this
    refine ⟨this, ?_⟩
    rw [this]
    intro h
    have hl := congrArg List.length (Option.some.inj h)
    simp at hl
  · intro name value hmem hn hv hfav
    obtain ⟨ps, hps⟩ := splitChar_head value
    have hen : envName value = value := by
      rw [splitChar_of_not_mem '=' value hv] at hps
      simp only [List.cons.injEq] at hps
      exact hps.1.symm
    have := h2 name value hmem hn (by rw [hen]; exact hfav)
    rw [hen] at this
    exact this

/-- An occurrence found by `index` lies inside the text. -/
theorem index_some_bound (s sub : Str) (n : Nat) (h : index s sub = some n) :
    n + sub.length ≤ s.length := by
  induction s generalizing n with
  | nil =>
    by_cases hs : sub = []
    · simp [index, hs] at h; subst h; simp [hs]
    · simp [index, hs] at h
  | cons c cs ih =>
    unfold index at h
    by_cases hp : sub.isPrefixOf (c :: cs) = true
    · simp [hp] at h
      subst h
      have : sub <+: c :: cs := by simpa using hp
      simpa using this.length_le
    · simp only [hp, Bool.false_eq_true, if_false, Option.map_eq_some'] at h
      obtain ⟨m, hm, rfl⟩ := h
      have := ih m hm
      simp only [List.length_cons]; omega

/-- The text left after a macro is shorter than the text before it. -/
theorem rest_shorter (s : Str) (to_ : Nat) (h : index s delimClose = some to_) :
    (s.drop (to_ + delimClose.length)).length < s.length := by
  have := index_some_bound s delimClose to_ h
  simp only [delimClose, List.length_cons, List.length_nil, List.length_drop] at this ⊢
  omega

/-- A call that returns, followed by a loop that ends, ends. -/
theorem afterCall_ne_diverge (r : Vars × Outcome) (out : Str)
    (k : Str → Vars → Vars × Outcome) (hr : r.2 ≠ Outcome.diverge)
    (hk : ∀ o v, (k o v).2 ≠ Outcome.diverge) : (afterCall r out k).2 ≠ Outcome.diverge := by
  obtain ⟨v, o⟩ := r
  cases o with
  | ret res err =>
    cases err with
    | none => exact hk _ _
    | some e => exact hk _ _
  | panic => simp [afterCall]
  | diverge => exact absurd rfl hr

/-- A plugin returns. -/
theorem run_ne_diverge (w : World) (vars : Vars) (cmd : Str) (args : List Str) :
    run w vars cmd args ≠ Outcome.diverge := by
  unfold run
  cases w.exec cmd args (runEnv w vars) <;> simp

/-- The loop of `render` ends with fuel greater than the length of the text,
when the builtins return and the nested calls it makes return. -/
theorem renderLoop_ne_diverge (w : World) (rl : Vars → List Str → Vars × Outcome)
    (recur : Str → Vars → Vars × Outcome) (deep : Int)
    (hrl : ∀ v a, (rl v a).2 ≠ Outcome.diverge)
    (hfav : ∀ v a, w.favicon v a ≠ Outcome.diverge)
    (hrec : deep ≤ 10 → ∀ b v, (recur b v).2 ≠ Outcome.diverge)
    (fuel : Nat) (s out : Str) (vars : Vars) (hf : s.length < fuel) :
    (renderLoop w rl recur deep fuel s out vars).2 ≠ Outcome.diverge := by
  induction fuel generalizing s out vars with
  | zero => omega
  | succ fuel ih =>
    rw [renderLoop]
    cases ho : index s delimOpen with
    | none => simp
    | some from_ =>
      cases hc : index s delimClose with
      | none => simp
      | some to_ =>
        simp only
        by_cases hlt : to_ < from_ + delimOpen.length
        · simp [hlt]
        · simp only [hlt, if_false]
          have hk : ∀ o v, (renderLoop w rl recur deep fuel
              (s.drop (to_ + delimClose.length)) o v).2 ≠ Outcome.diverge := by
            intro o v
            apply ih
            have := rest_shorter s to_ hc
            omega
          cases hm : fields ((s.take to_).drop (from_ + delimOpen.length)) with
          | nil => simp
          | cons m0 margs =>
            simp only
            have hplugin : (afterCall (vars, run w vars m0 margs) (out ++ s.take from_)
                (renderLoop w rl recur deep fuel (s.drop (to_ + delimClose.length)))).2
                ≠ Outcome.diverge :=
              afterCall_ne_diverge _ _ _ (run_ne_diverge w vars m0 margs) hk
            have hvar : (match vget vars m0 with
                | some v => renderLoop w rl recur deep fuel (s.drop (to_ + delimClose.length))
                    (out ++ s.take from_ ++ v) vars
                | none => afterCall (vars, run w vars m0 margs) (out ++ s.take from_)
                    (renderLoop w rl recur deep fuel (s.drop (to_ + delimClose.length)))).2
                ≠ Outcome.diverge := by
              cases vget vars m0 with
              | none => exact hplugin
              | some v => exact hk _ _
            by_cases h1 : m0 = "renderlist".toList
            · rw [if_pos h1]
              exact afterCall_ne_diverge _ _ _ (hrl _ _) hk
            rw [if_neg h1]
            by_cases h2 : m0 = "favicon".toList
            · rw [if_pos h2]
              exact afterCall_ne_diverge _ _ _ (hfav _ _) hk
            rw [if_neg h2]
            by_cases h3 : filepathExt m0 = ".html".toList ∨ filepathExt m0 = ".md".toList
            · rw [if_pos h3]
              cases w.readFile (filepathJoin ZSDIR m0) with
              | error e => exact hvar
              | ok b =>
                simp only
                by_cases h5 : deep > 10
                · rw [if_pos h5]; simp
                · rw [if_neg h5]
                  exact afterCall_ne_diverge _ _ _ (hrec (by omega) _ _) hk
            rw [if_neg h3]
            by_cases h4 : margs.length + 1 = 1
            · rw [if_pos h4]; exact hvar
            · rw [if_neg h4]; exact hplugin

/-- With enough levels of nesting `render` ends. -/
theorem renderAt_ne_diverge (w : World) (rl : Vars → List Str → Vars × Outcome)
    (hrl : ∀ v a, (rl v a).2 ≠ Outcome.diverge)
    (hfav : ∀ v a, w.favicon v a ≠ Outcome.diverge)
    (k : Nat) (s : Str) (vars : Vars) (deep : Int) (hk : (11 - deep).toNat + 1 ≤ k) :
    (renderAt w rl k s vars deep).2 ≠ Outcome.diverge := by
  induction k generalizing s vars deep with
  | zero => omega
  | succ k ih =>
    rw [renderAt]
    apply renderLoop_ne_diverge w rl _ deep hrl hfav _ _ s [] vars (by omega)
    intro hd b v
    apply ih
    omega

/-- The loop of `render` calls the nested `render` at a depth of at most 10
only: at a greater depth it does not depend on it, and at a depth of at most
10 it depends on its results only. -/
theorem renderLoop_congr (w : World) (rl : Vars → List Str → Vars × Outcome)
    (recur recur' : Str → Vars → Vars × Outcome) (deep : Int)
    (h : deep ≤ 10 → ∀ b v, recur b v = recur' b v)
    (fuel : Nat) (s out : Str) (vars : Vars) :
    renderLoop w rl recur deep fuel s out vars = renderLoop w rl recur' deep fuel s out vars := by
  induction fuel generalizing s out vars with
  | zero => rfl
  | succ fuel ih =>
    rw [renderLoop, renderLoop]
    have hk : renderLoop w rl recur deep fuel = renderLoop w rl recur' deep fuel := by
      funext s out vars; exact ih s out vars
    simp only [hk]
    by_cases hd : deep > 10
    · simp only [hd, if_true]
    · have : recur = recur' := by
        funext b v; exact h (by omega) b v
      rw [this]

/-- More levels of nesting than `11 - deep` change nothing. -/
theorem renderAt_stable (w : World) (rl : Vars → List Str → Vars × Outcome)
    (k k' : Nat) (s : Str) (vars : Vars) (deep : Int)
    (hk : (11 - deep).toNat + 1 ≤ k) (hk' : (11 - deep).toNat + 1 ≤ k') :
    renderAt w rl k s vars deep = renderAt w rl k' s vars deep := by
  induction k generalizing k' s vars deep with
  | zero => omega
  | succ k ih =>
    cases k' with
    | zero => omega
    | succ k' =>
      rw [renderAt, renderAt]
      apply renderLoop_congr
      intro hd b v
      exact ih k' b v (deep + 1) (by omega) (by omega)

/-- More fuel than the length of the text changes nothing in the loop of
`render`. -/
theorem renderLoop_stable (w : World) (rl : Vars → List Str → Vars × Outcome)
    (recur : Str → Vars → Vars × Outcome) (deep : Int)
    (fuel fuel' : Nat) (s out : Str) (vars : Vars)
    (hf : s.length < fuel) (hf' : s.length < fuel') :
    renderLoop w rl recur deep fuel s out vars = renderLoop w rl recur deep fuel' s out vars := by
  induction fuel generalizing fuel' s out vars with
  | zero => omega
  | succ fuel ih =>
    cases fuel' with
    | zero => omega
    | succ fuel' =>
      rw [renderLoop, renderLoop]
      cases ho : index s delimOpen with
      | none => rfl
      | some from_ =>
        cases hc : index s delimClose with
        | none => rfl
        | some to_ =>
          have hlen := rest_shorter s to_ hc
          have hk : ∀ o v, renderLoop w rl recur deep fuel (s.drop (to_ + delimClose.length)) o v
              = renderLoop w rl recur deep fuel' (s.drop (to_ + delimClose.length)) o v :=
            fun o v => ih fuel' _ o v (by omega) (by omega)
          have hk2 : renderLoop w rl recur deep fuel (s.drop (to_ + delimClose.length))
              = renderLoop w rl recur deep fuel' (s.drop (to_ + delimClose.length)) := by
            funext o v; exact hk o v
          simp only [hk2]

/-- C14: when the builtins `renderlist` and `favicon` return, `render` returns
(or panics) on every text, at every depth and whatever the partials hold: the
levels of nesting and the turns of the loop that the model allows are never
used up.  More than `11 - deep` levels of nesting change nothing, since a
nested call is made at a depth of at most 10 only, with the depth one greater;
more turns of the loop than the text has characters change nothing, since each
turn goes on with a shorter text. -/
theorem render_terminates (w : World) (rl : Vars → List Str → Vars × Outcome)
    (hrl : ∀ v a, (rl v a).2 ≠ Outcome.diverge)
    (hfav : ∀ v a, w.favicon v a ≠ Outcome.diverge) :
    (∀ (s : Str) (vars : Vars) (deep : Int), (render w rl s vars deep).2 ≠ Outcome.diverge) ∧
    (∀ (s : Str) (vars : Vars) (deep : Int) (k : Nat), (11 - deep).toNat + 1 ≤ k →
      renderAt w rl k s vars deep = render w rl s vars deep) ∧
    (∀ (recur : Str → Vars → Vars × Outcome) (deep : Int) (fuel : Nat) (s out : Str)
      (vars : Vars), s.length < fuel →
      renderLoop w rl recur deep fuel s out vars
        = renderLoop w rl recur deep (s.length + 1) s out vars) ∧
    (∀ (s : Str) (to_ : Nat), index s delimClose = some to_ →
      (s.drop (to_ + 2)).length < s.length) ∧
    (∀ (recur recur' : Str → Vars → Vars × Outcome) (deep : Int) (fuel : Nat) (s out : Str)
      (vars : Vars), deep > 10 →
      renderLoop w rl recur deep fuel s out vars
        = renderLoop w rl recur' deep fuel s out vars) := by
  refine ⟨?_, ?_, ?_, ?_, ?_⟩
  · intro s vars deep
    exact renderAt_ne_diverge w rl hrl hfav _ s vars deep (le_refl _)
  · intro s vars deep k hk
    exact renderAt_stable w rl k _ s vars deep hk (le_refl _)
  · intro recur deep fuel s out vars hf
    exact renderLoop_stable w rl recur deep fuel _ s out vars hf (Nat.lt_succ_self _)
  · intro s to_ h
    exact rest_shorter s to_ h
  · intro recur recur' deep fuel s out vars hd
    exact renderLoop_congr w rl recur recur' deep (fun h => by omega) fuel s out vars

/-- A partial that includes itself: `render` returns at depth 1. -/
theorem render_terminates_witness :
    (render partialWorld noList "x\x7b\x7bloop.html\x7d\x7dy".toList [] 1).2
      ≠ Outcome.diverge :=
  (render_terminates partialWorld noList (fun _ _ => by simp [noList])
    (fun _ _ => by simp [partialWorld, emptyWorld])).1 _ _ _

/-- When the loop of `renderlist` returns without error, its result is what it
had, followed by the items of the listed files, in the order of the list. -/
theorem renderItems_ok (w : World) (rend : Str → Vars → Int → Vars × Outcome)
    (ignorelist : List Str) (itemlayout : Str) (vars : Vars) (paths : List Str)
    (result out : Str)
    (h : renderItems w rend ignorelist itemlayout vars paths result = Outcome.ret out none) :
    ∃ items, out = result ++ items.flatten ∧
      List.Forall₂ (IsItemOf w rend itemlayout vars) (paths.filter (isListed w)) items := by
  induction paths generalizing result with
  | nil =>
    rw [renderItems] at h
    simp only [Outcome.ret.injEq, and_true] at h
    exact ⟨[], by simp [h], by simp⟩
  | cons path rest ih =>
    rw [renderItems] at h
    by_cases hh : (filepathBase path).head? = some '.' ∨ hasPrefix path ['.'] = true
    · rw [if_pos hh] at h
      have hl : isListed w path = false := by
        rcases hh with hh | hh <;> simp [isListed, hh]
      rw [List.filter_cons_of_neg (by simp [hl])]
      exact ih result h
    · rw [if_neg hh] at h
      by_cases hp : ignoreLoopPanics w ignorelist = true
      · rw [if_pos hp] at h; exact absurd h (by simp)
      · rw [if_neg hp] at h
        have hh' : (decide ((filepathBase path).head? = some '.') || hasPrefix path ['.'])
            = false := by
          simp only [not_or] at hh
          simp [hh.1, hh.2]
        cases hs : w.stat path with
        | error e =>
          rw [hs] at h
          have hl : isListed w path = false := by simp [isListed, hs]
          rw [List.filter_cons_of_neg (by simp [hl])]
          exact ih result h
        | ok d =>
          cases d with
          | true =>
            rw [hs] at h
            have hl : isListed w path = false := by simp [isListed, hs]
            rw [List.filter_cons_of_neg (by simp [hl])]
            exact ih result h
          | false =>
            rw [hs] at h
            have hl : isListed w path = true := by simp [isListed, hs, hh']
            rw [List.filter_cons_of_pos hl]
            cases hg : getVars w path vars with
            | error e => rw [hg] at h; exact absurd h (by simp)
            | ok r =>
              obtain ⟨vitem, body⟩ := r
              rw [hg] at h
              simp only at h
              have key : ∀ o, (rend itemlayout (itemVarsOf w vitem path) 1).2 = o →
                  (rend itemlayout
                    (vset (vset (vset vitem "file".toList path) "url".toList
                      (path.take (path.length - (filepathExt path).length) ++ ".html".toList))
                      "output".toList (filepathJoin w.pubdir
                        (vat (vset (vset vitem "file".toList path) "url".toList
                          (path.take (path.length - (filepathExt path).length)
                            ++ ".html".toList)) "url".toList))) 1).2 = o := fun _ e => e
              cases hr : (rend itemlayout (itemVarsOf w vitem path) 1).2 with
              | ret item err =>
                rw [key _ hr] at h
                cases err with
                | some e => exact absurd h (by simp)
                | none =>
                  obtain ⟨items, h1, h2⟩ := ih (result ++ item) h
                  refine ⟨item :: items, by simp [h1], ?_⟩
                  exact List.Forall₂.cons ⟨vitem, body, hg, hr⟩ h2
              | panic => rw [key _ hr] at h; exact absurd h (by simp)
              | diverge => rw [key _ hr] at h; exact absurd h (by simp)

/-- When every listed file has an item and the patterns of the ignore list
compile, the loop of `renderlist` returns its result followed by the items, in
the order of the list. -/
theorem renderItems_all (w : World) (rend : Str → Vars → Int → Vars × Outcome)
    (ignorelist : List Str) (itemlayout : Str) (vars : Vars) (paths : List Str)
    (result : Str) (items : List Str)
    (hc : ignoreLoopPanics w ignorelist = false)
    (h : List.Forall₂ (IsItemOf w rend itemlayout vars) (paths.filter (isListed w)) items) :
    renderItems w rend ignorelist itemlayout vars paths result
      = Outcome.ret (result ++ items.flatten) none := by
  induction paths generalizing result items with
  | nil =>
    simp only [List.filter_nil, List.forall₂_nil_left_iff] at h
    subst h
    simp [renderItems]
  | cons path rest ih =>
    rw [renderItems]
    by_cases hl : isListed w path = true
    · rw [List.filter_cons_of_pos hl] at h
      cases items with
      | nil => simp at h
      | cons item items =>
        rw [List.forall₂_cons] at h
        obtain ⟨⟨vitem, body, hg, hr⟩, h2⟩ := h
        simp only [isListed, Bool.and_eq_true, Bool.not_eq_true', Bool.or_eq_false_iff,
          decide_eq_false_iff_not] at hl
        obtain ⟨⟨hl1, hl2⟩, hl3⟩ := hl
        have hs : w.stat path = .ok false := by
          cases hst : w.stat path with
          | error e => rw [hst] at hl3; simp at hl3
          | ok d =>
            cases d with
            | true => rw [hst] at hl3; simp at hl3
            | false => rfl
        have hr' : (rend itemlayout
            (vset (vset (vset vitem "file".toList path) "url".toList
              (path.take (path.length - (filepathExt path).length) ++ ".html".toList))
              "output".toList (filepathJoin w.pubdir
                (vat (vset (vset vitem "file".toList path) "url".toList
                  (path.take (path.length - (filepathExt path).length)
                    ++ ".html".toList)) "url".toList))) 1).2 = Outcome.ret item none := hr
        simp only [hl1, hl2, hc, hs, hg, hr', false_or, Bool.false_eq_true, if_false]
        rw [ih (result ++ item) items h2]
        simp
    · have hl' : isListed w path = false := by simpa using hl
      rw [List.filter_cons_of_neg hl] at h
      by_cases hh : (filepathBase path).head? = some '.' ∨ hasPrefix path ['.'] = true
      · rw [if_pos hh]
        exact ih result items h
      · rw [if_neg hh]
        simp only [hc, Bool.false_eq_true, if_false]
        have hh' : (decide ((filepathBase path).head? = some '.') || hasPrefix path ['.'])
            = false := by
          simp only [not_or] at hh
          simp [hh.1, hh.2]
        cases hs : w.stat path with
        | error e => exact ih result items h
        | ok d =>
          cases d with
          | true => exact ih result items h
          | false => simp [isListed, hs, hh'] at hl'

/-- C17: the matching paths are put in descending order (`a` may stand before
`b` when `a` is not smaller than `b` in the lexicographic order of the code
points, which is that of the bytes), and the output of `renderlist` is the
concatenation of the items of the listed files in that order, an item of a
greater path before an item of a smaller one.  The items are those of the
layout `itemLayoutOf w vars` with the variables `listVars vars`.  Whenever
`renderlist` returns without error, its output is that concatenation; and, when
the pattern has matches, the patterns of the ignore list compile and every
listed file has an item, `renderlist` does return, without error, with that
concatenation as output.  In the world `datedWorld` the program returns the
items of the three posts, the newest first. -/
theorem renderlist_descending :
    (∀ found : List Str,
      (sortDescending found).Sorted (fun a b => b ≤ a) ∧
      (sortDescending found).Perm found) ∧
    (∀ a b : Str, b ≤ a ↔ ¬ List.Lex (fun x y : Char => x.toNat < y.toNat) a b) ∧
    (∀ (w : World) (rend : Str → Vars → Int → Vars × Outcome) (vars : Vars)
      (pattern out : Str),
      (renderlist w rend vars [pattern]).2 = Outcome.ret out none →
      ∃ found items, w.glob pattern = .ok found ∧ found ≠ [] ∧
        (renderlist w rend vars [pattern]).1 = listVars vars ∧
        out = items.flatten ∧
        List.Forall₂ (IsItemOf w rend (itemLayoutOf w vars) (listVars vars))
          ((sortDescending found).filter (isListed w)) items ∧
        ((sortDescending found).filter (isListed w)).Sorted (fun a b => b ≤ a)) ∧
    (∀ (w : World) (rend : Str → Vars → Int → Vars × Outcome) (vars : Vars)
      (pattern : Str) (found : List Str) (items : List Str),
      w.glob pattern = .ok found → found ≠ [] →
      ignoreLoopPanics w (loadIgnore w) = false →
      List.Forall₂ (IsItemOf w rend (itemLayoutOf w vars) (listVars vars))
        ((sortDescending found).filter (isListed w)) items →
      renderlist w rend vars [pattern] = (listVars vars, Outcome.ret items.flatten none)) ∧
    (∀ (w : World) (rend : Str → Vars → Int → Vars × Outcome) (ignorelist : List Str)
      (itemlayout : Str) (vars : Vars) (paths : List Str) (result : Str) (items : List Str),
      ignoreLoopPanics w ignorelist = false →
      List.Forall₂ (IsItemOf w rend itemlayout vars) (paths.filter (isListed w)) items →
      renderItems w rend ignorelist itemlayout vars paths result
        = Outcome.ret (result ++ items.flatten) none) ∧
    sortDescending ["2024-01-05-a.md".toList, "2024-03-01-b.md".toList,
        "2023-12-31-c.md".toList]
      = ["2024-03-01-b.md".toList, "2024-01-05-a.md".toList, "2023-12-31-c.md".toList] ∧
    (renderlistN datedWorld 1 [] ["*.md".toList]).2
      = Outcome.ret "<2024-03-01-b.md><2024-01-05-a.md><2023-12-31-c.md>".toList none := by
  refine ⟨?_, ?_, ?_, ?_, ?_, by decide, by decide⟩
  · intro found
    exact ⟨List.sorted_insertionSort _ found, List.perm_insertionSort _ found⟩
  · intro a b
    rw [← not_lt]
    exact Iff.rfl
  · intro w rend vars pattern out h
    unfold renderlist at h ⊢
    simp only at h ⊢
    cases hg : w.glob pattern with
    | error e => rw [hg] at h; exact absurd h (by simp)
    | ok found =>
      rw [hg] at h
      simp only at h ⊢
      by_cases hz : found.length = 0
      · rw [if_pos hz] at h; exact absurd h (by simp)
      · rw [if_neg hz] at h
        rw [if_neg hz]
        obtain ⟨items, h1, h2⟩ := renderItems_ok _ _ _ _ _ _ _ _ h
        exact ⟨found, items, rfl, fun e => hz (by rw [e]; rfl), rfl, by simpa using h1, h2,
          (List.sorted_insertionSort _ found).filter _⟩
  · intro w rend vars pattern found items hg hne hc h
    have hz : ¬ found.length = 0 := fun e => hne (List.length_eq_zero.1 e)
    unfold renderlist
    simp only [hg]
    rw [if_neg hz]
    have := renderItems_all w rend (loadIgnore w) (itemLayoutOf w vars) (listVars vars)
      (sortDescending found) [] items hc h
    simp only [List.nil_append] at this
    exact congrArg (Prod.mk (listVars vars)) this
  · intro w rend ignorelist itemlayout vars paths result items hc h
    exact renderItems_all w rend ignorelist itemlayout vars paths result items hc h

/-- The list of the posts of `datedWorld`: the pattern has four matches, three
of them files, each with an item, so the program returns the three items, the
newest post first. -/
theorem renderlist_descending_witness :
    renderlist datedWorld (renderN datedWorld 1) [] ["*.md".toList]
      = (listVars [], Outcome.ret
          ["<2024-03-01-b.md>".toList, "<2024-01-05-a.md>".toList,
            "<2023-12-31-c.md>".toList].flatten none) :=
  renderlist_descending.2.2.2.1 datedWorld (renderN datedWorld 1) [] "*.md".toList
    ["2023-12-31-c.md".toList, "2024-01-05-a.md".toList, "2024-02-01-d.md".toList,
      "2024-03-01-b.md".toList]
    ["<2024-03-01-b.md>".toList, "<2024-01-05-a.md>".toList, "<2023-12-31-c.md>".toList]
    rfl (by decide) (by decide)
    (List.Forall₂.cons ⟨_, _, rfl, rfl⟩
      (List.Forall₂.cons ⟨_, _, rfl, rfl⟩
        (List.Forall₂.cons ⟨_, _, rfl, rfl⟩ List.Forall₂.nil)))

/-- With patterns that all compile, the loop over the ignore list tells whether
a pattern matches. -/
theorem ignoreMatch_eq (w : World) (path : Str) (ignorelist : List Str)
    (hc : ∀ p ∈ ignorelist, (w.globCompile p).isSome = true) :
    ignoreMatch w path ignorelist = some (isIgnored w ignorelist path) := by
  induction ignorelist with
  | nil => rfl
  | cons p rest ih =>
    have hr : ∀ q ∈ rest, (w.globCompile q).isSome = true :=
      fun q hq => hc q (List.mem_cons_of_mem _ hq)
    have hp := hc p (by simp)
    cases hg : w.globCompile p with
    | none => rw [hg] at hp; simp at hp
    | some g =>
      rw [ignoreMatch, hg]
      simp only
      by_cases hm : g path = true
      · simp [isIgnored, hg, hm]
      · have hm' : g path = false := by simpa using hm
        rw [if_neg hm, ih hr]
        simp [isIgnored, hg, hm']

/-- The walk function on a dirty file: the prehook is run if no file was dirty
before, the file is built, and the result of the build is returned. -/
theorem walkFn_dirty (w : World) (b : Builders) (ignorelist : List Str) (lastModified : Int)
    (hc : ∀ p ∈ ignorelist, (w.globCompile p).isSome = true)
    (st : CycleState) (e : WalkEntry) (hd : isDirty w ignorelist lastModified e = true) :
    walkFn w b ignorelist lastModified st e
      = ({ modified := true,
           events := st.events ++ (if st.modified then [] else [Event.prehook])
             ++ [Event.build e.path] }, build b e.path) := by
  simp only [isDirty, isHidden, Bool.and_eq_true, Bool.not_eq_true', Bool.or_eq_false_iff,
    decide_eq_false_iff_not, decide_eq_true_eq] at hd
  obtain ⟨⟨⟨⟨⟨h1, h2⟩, h3⟩, h4⟩, h5⟩, h6⟩ := hd
  have h4' : e.err.isSome = false := by
    cases he : e.err with
    | none => rfl
    | some x => rw [he] at h4; simp at h4
  unfold walkFn
  rw [ignoreMatch_eq w e.path ignorelist hc, h3]
  obtain ⟨m, evs⟩ := st
  cases m <;> simp [h1, h2, h4', h5, h6]

/-- The walk function on an entry that is no dirty file: at most a directory is
made, and the walk goes on. -/
theorem walkFn_clean (w : World) (b : Builders) (ignorelist : List Str) (lastModified : Int)
    (hc : ∀ p ∈ ignorelist, (w.globCompile p).isSome = true)
    (st : CycleState) (e : WalkEntry) (hd : isDirty w ignorelist lastModified e = false) :
    ∃ evs, withoutMkdir evs = [] ∧
      walkFn w b ignorelist lastModified st e
        = ({ modified := st.modified, events := st.events ++ evs }, Status.done) := by
  unfold walkFn
  rw [ignoreMatch_eq w e.path ignorelist hc]
  by_cases hh : (filepathBase e.path).head? = some '.' ∨ hasPrefix e.path ['.'] = true
  · exact ⟨[], rfl, by simp [hh]⟩
  · rw [if_neg hh]
    have hh' : isHidden e.path = false := by
      simp only [not_or] at hh
      simp [isHidden, hh.1, hh.2]
    cases hi : isIgnored w ignorelist e.path with
    | true => exact ⟨[], rfl, by simp⟩
    | false =>
      simp only
      by_cases he : e.err.isSome = true
      · exact ⟨[], rfl, by simp [he]⟩
      · rw [if_neg he]
        by_cases hdir : e.isDir = true
        · exact ⟨[Event.mkdir (filepathJoin w.pubdir e.path)], rfl, by simp [hdir]⟩
        · rw [if_neg hdir]
          by_cases hm : e.modTime > lastModified
          · exfalso
            have he' : e.err.isNone = true := by
              cases hx : e.err with
              | none => rfl
              | some x => rw [hx] at he; simp at he
            have hdir' : e.isDir = false := by simpa using hdir
            simp [isDirty, hh', hi, he', hdir', hm] at hd
          · exact ⟨[], rfl, by simp [hm]⟩

/-- The events kept of two lists of events one after the other. -/
theorem withoutMkdir_append (a b : List Event) :
    withoutMkdir (a ++ b) = withoutMkdir a ++ withoutMkdir b := by
  simp [withoutMkdir]

/-- The dirty files of a tree whose first entry is no dirty file. -/
theorem dirtyFiles_cons_clean (w : World) (b : Builders) (ignorelist : List Str)
    (lastModified : Int) (e : WalkEntry) (rest : List WalkEntry)
    (hd : isDirty w ignorelist lastModified e = false) :
    dirtyFiles w b ignorelist lastModified (e :: rest)
      = dirtyFiles w b ignorelist lastModified rest := by
  simp [dirtyFiles, visited, hd]

/-- The dirty files of a tree whose first entry is a dirty file that is built
without error. -/
theorem dirtyFiles_cons_done (w : World) (b : Builders) (ignorelist : List Str)
    (lastModified : Int) (e : WalkEntry) (rest : List WalkEntry)
    (hd : isDirty w ignorelist lastModified e = true) (hb : build b e.path = Status.done) :
    dirtyFiles w b ignorelist lastModified (e :: rest)
      = e.path :: dirtyFiles w b ignorelist lastModified rest := by
  simp [dirtyFiles, visited, hd, hb]

/-- The dirty files of a tree whose first entry is a dirty file the build of
which fails. -/
theorem dirtyFiles_cons_failed (w : World) (b : Builders) (ignorelist : List Str)
    (lastModified : Int) (e : WalkEntry) (rest : List WalkEntry)
    (hd : isDirty w ignorelist lastModified e = true) (hb : build b e.path ≠ Status.done) :
    dirtyFiles w b ignorelist lastModified (e :: rest) = [e.path] := by
  simp [dirtyFiles, visited, hd, hb]

/-- The walk of a cycle, when no pattern fails to compile and no build panics:
it does not panic, `modified` is set exactly when a file is dirty, and its
hooks and builds are the prehook, if a file is dirty and `modified` was not
set, and the builds of the dirty files. -/
theorem walk_events (w : World) (b : Builders) (ignorelist : List Str) (lastModified : Int)
    (hc : ∀ p ∈ ignorelist, (w.globCompile p).isSome = true)
    (hb : ∀ path, build b path ≠ Status.crashed)
    (entries : List WalkEntry) (st : CycleState) :
    ∃ st' r, walk (walkFn w b ignorelist lastModified) st entries = (st', r) ∧
      r ≠ Status.crashed ∧
      st'.modified = (st.modified || !(dirtyFiles w b ignorelist lastModified entries).isEmpty) ∧
      withoutMkdir st'.events = withoutMkdir st.events ++
        (if dirtyFiles w b ignorelist lastModified entries = [] ∨ st.modified = true then []
          else [Event.prehook]) ++
        (dirtyFiles w b ignorelist lastModified entries).map Event.build := by
  induction entries generalizing st with
  | nil =>
    exact ⟨st, Status.done, rfl, by simp, by simp [dirtyFiles, visited],
      by simp [dirtyFiles, visited]⟩
  | cons e rest ih =>
    cases hd : isDirty w ignorelist lastModified e with
    | false =>
      obtain ⟨evs, h1, h2⟩ := walkFn_clean w b ignorelist lastModified hc st e hd
      obtain ⟨st', r, h3, h4, h5, h6⟩ := ih { modified := st.modified, events := st.events ++ evs }
      refine ⟨st', r, ?_, h4, ?_, ?_⟩
      · rw [walk, h2]; exact h3
      · rw [dirtyFiles_cons_clean w b ignorelist lastModified e rest hd]; exact h5
      · rw [dirtyFiles_cons_clean w b ignorelist lastModified e rest hd, h6]
        simp only [withoutMkdir_append, h1, List.append_nil]
    | true =>
      have h2 := walkFn_dirty w b ignorelist lastModified hc st e hd
      cases hbe : build b e.path with
      | crashed => exact absurd hbe (hb _)
      | failed err =>
        rw [hbe] at h2
        have hD := dirtyFiles_cons_failed w b ignorelist lastModified e rest hd
          (by rw [hbe]; simp)
        refine ⟨_, Status.failed err, by rw [walk, h2], by simp, ?_, ?_⟩
        · rw [hD]; simp
        · rw [hD]
          cases hm : st.modified <;> simp [withoutMkdir_append, withoutMkdir]
      | done =>
        rw [hbe] at h2
        have hD := dirtyFiles_cons_done w b ignorelist lastModified e rest hd hbe
        obtain ⟨st', r, h3, h4, h5, h6⟩ := ih ⟨true,
          st.events ++ (if st.modified then [] else [Event.prehook]) ++ [Event.build e.path]⟩
        refine ⟨st', r, by rw [walk, h2]; exact h3, h4, ?_, ?_⟩
        · rw [hD, h5]; simp
        · rw [hD, h6]
          cases hm : st.modified <;> simp [withoutMkdir_append, withoutMkdir]

/-- A hook occurs among the events as often as among those that are not the
making of a directory. -/
theorem count_withoutMkdir (events : List Event) (ev : Event)
    (h : ev = Event.prehook ∨ ev = Event.posthook) :
    (withoutMkdir events).count ev = events.count ev := by
  unfold withoutMkdir
  rw [List.count_filter]
  rcases h with h | h <;> simp [h]

/-- Each hook is once among the hooks and builds of a cycle with a dirty
file. -/
theorem count_expectedEvents (dirty : List Str) (h : dirty ≠ []) :
    (expectedEvents dirty).count Event.prehook = 1 ∧
    (expectedEvents dirty).count Event.posthook = 1 := by
  have h1 : (dirty.map Event.build).count Event.prehook = 0 := by
    rw [List.count_eq_zero]; simp
  have h2 : (dirty.map Event.build).count Event.posthook = 0 := by
    rw [List.count_eq_zero]; simp
  simp [expectedEvents, h, List.count_cons, List.count_append, h1, h2]

/-- One cycle of `buildAll` that starts with `modified` not set, when no pattern
fails to compile and no build panics: it ends with `modified` not set, and its
hooks and builds are those of the specification; the posthook, when run, is the
last event. -/
theorem buildCycle_events (w : World) (b : Builders) (ignorelist : List Str)
    (lastModified : Int)
    (hc : ∀ p ∈ ignorelist, (w.globCompile p).isSome = true)
    (hb : ∀ path, build b path ≠ Status.crashed) (entries : List WalkEntry) :
    ∃ events, buildCycle w b ignorelist lastModified false entries = some (events, false) ∧
      withoutMkdir events = expectedEvents (dirtyFiles w b ignorelist lastModified entries) ∧
      (dirtyFiles w b ignorelist lastModified entries ≠ [] →
        events.getLast? = some Event.posthook) := by
  obtain ⟨st', r, h1, h2, h3, h4⟩ := walk_events w b ignorelist lastModified hc hb entries
    ⟨false, [Event.mkdir w.pubdir]⟩
  unfold buildCycle
  simp only [h1]
  have h4' : withoutMkdir st'.events =
      (if dirtyFiles w b ignorelist lastModified entries = [] then [] else [Event.prehook])
        ++ (dirtyFiles w b ignorelist lastModified entries).map Event.build := by
    rw [h4]; simp [withoutMkdir]
  by_cases hD : dirtyFiles w b ignorelist lastModified entries = []
  · have hm : st'.modified = false := by rw [h3, hD]; rfl
    refine ⟨st'.events, ?_, ?_, fun h => absurd hD h⟩
    · cases r with
      | crashed => exact absurd rfl h2
      | done => simp [hm]
      | failed err => simp [hm]
    · rw [h4', hD]; simp [expectedEvents]
  · have hm : st'.modified = true := by
      rw [h3]
      cases hx : dirtyFiles w b ignorelist lastModified entries with
      | nil => exact absurd hx hD
      | cons a as => rfl
    refine ⟨st'.events ++ [Event.posthook], ?_, ?_, fun _ => by simp⟩
    · cases r with
      | crashed => exact absurd rfl h2
      | done => simp [hm]
      | failed err => simp [hm]
    · rw [withoutMkdir_append, h4']
      simp [expectedEvents, hD, withoutMkdir]

/-- The cycles of watch mode, when no pattern fails to compile and no build
panics: none is cut short, and the hooks and builds of each are those of the
specification. -/
theorem watchCycles_events (w : World) (ignorelist : List Str)
    (hc : ∀ p ∈ ignorelist, (w.globCompile p).isSome = true)
    (lastModified : Int) (snaps : List Snapshot)
    (hb : ∀ c ∈ snaps, ∀ path, build c.builders path ≠ Status.crashed) :
    (watchCycles w ignorelist lastModified false snaps).map withoutMkdir
      = expectedCycles w ignorelist lastModified snaps := by
  induction snaps generalizing lastModified with
  | nil => rfl
  | cons c rest ih =>
    obtain ⟨events, h1, h2, _⟩ := buildCycle_events w c.builders ignorelist lastModified hc
      (hb c (by simp)) c.entries
    rw [watchCycles, h1]
    simp only [List.map_cons, expectedCycles, h2]
    rw [ih c.now (fun c' hc' => hb c' (List.mem_cons_of_mem _ hc'))]

/-- The hooks of the cycles that no panic cuts short.  In a cycle of `buildAll`
in which no pattern of the ignore list fails to compile and no build panics,
with `D` the dirty files the walk visits: when `D` is empty neither hook is
run; when `D` is not empty the prehook is run once, before the builds, which
are those of `D`, and the posthook is run once, as the last event of the
cycle.  The cycle leaves `modified` unset, so the same holds in every cycle of
watch mode, each with the watermark read at the end of the cycle before. -/
theorem hooks_once_without_panic (w : World) (ignorelist : List Str)
    (hc : ∀ p ∈ ignorelist, (w.globCompile p).isSome = true) :
    (∀ (b : Builders) (lastModified : Int) (entries : List WalkEntry),
      (∀ path, build b path ≠ Status.crashed) →
      ∃ events, buildCycle w b ignorelist lastModified false entries = some (events, false) ∧
        withoutMkdir events = expectedEvents (dirtyFiles w b ignorelist lastModified entries) ∧
        (dirtyFiles w b ignorelist lastModified entries = [] →
          Event.prehook ∉ events ∧ Event.posthook ∉ events) ∧
        (dirtyFiles w b ignorelist lastModified entries ≠ [] →
          events.count Event.prehook = 1 ∧ events.count Event.posthook = 1 ∧
          events.getLast? = some Event.posthook)) ∧
    (∀ (lastModified : Int) (snaps : List Snapshot),
      (∀ c ∈ snaps, ∀ path, build c.builders path ≠ Status.crashed) →
      (watchCycles w ignorelist lastModified false snaps).length = snaps.length ∧
      (watchCycles w ignorelist lastModified false snaps).map withoutMkdir
        = expectedCycles w ignorelist lastModified snaps) := by
  constructor
  · intro b lastModified entries hb
    obtain ⟨events, h1, h2, h3⟩ := buildCycle_events w b ignorelist lastModified hc hb entries
    refine ⟨events, h1, h2, ?_, ?_⟩
    · intro hD
      rw [hD] at h2
      have hz : withoutMkdir events = [] := by rw [h2]; rfl
      constructor
      · intro hm
        have : Event.prehook ∈ withoutMkdir events := by
          simp [withoutMkdir, hm]
        rw [hz] at this; simp at this
      · intro hm
        have : Event.posthook ∈ withoutMkdir events := by
          simp [withoutMkdir, hm]
        rw [hz] at this; simp at this
    · intro hD
      have hcnt := count_expectedEvents _ hD
      rw [← h2, count_withoutMkdir _ _ (Or.inl rfl), count_withoutMkdir _ _ (Or.inr rfl)] at hcnt
      exact ⟨hcnt.1, hcnt.2, h3 hD⟩
  · intro lastModified snaps hb
    have h := watchCycles_events w ignorelist hc lastModified snaps hb
    refine ⟨?_, h⟩
    have := congrArg List.length h
    rw [List.length_map] at this
    rw [this]
    clear h this hb
    induction snaps generalizing lastModified with
    | nil => rfl
    | cons c rest ih => simp [expectedCycles, ih]

/-- Three cycles of watch mode on a tree with a directory and two files: in the
first the file `a.md` is dirty, in the second nothing is, in the third the
image is. -/
theorem watchedTree_hooks :
    (watchCycles emptyWorld [] 0 false watchedTree).length = 3 ∧
    (watchCycles emptyWorld [] 0 false watchedTree).map withoutMkdir
      = [[Event.prehook, Event.build "a.md".toList, Event.posthook], [],
         [Event.prehook, Event.build "img/x.png".toList, Event.posthook]] := by
  have h := (hooks_once_without_panic emptyWorld [] (by simp)).2 0 watchedTree (by
    intro c hc path
    have hF : build failOnA path ≠ Status.crashed := by
      unfold build failOnA
      simp only
      split_ifs <;> simp
    simp only [watchedTree, List.mem_cons, List.mem_singleton, List.not_mem_nil, or_false] at hc
    rcases hc with h | h | h <;> (rw [h]; exact hF))
  refine ⟨h.1, ?_⟩
  rw [h.2]
  decide

/-- The walk of a cycle in which the build of a dirty file panics, when no
pattern fails to compile: the walk ends in that panic, after the prehook and
with no posthook. -/
theorem walk_panics (w : World) (b : Builders) (ignorelist : List Str) (lastModified : Int)
    (hc : ∀ p ∈ ignorelist, (w.globCompile p).isSome = true)
    (entries : List WalkEntry) (st0 : CycleState)
    (hpost : Event.posthook ∉ st0.events)
    (hpre : st0.modified = true → Event.prehook ∈ st0.events)
    (h : ∃ e ∈ visited w b ignorelist lastModified entries,
      isDirty w ignorelist lastModified e = true ∧ build b e.path = Status.crashed) :
    ∃ st, walk (walkFn w b ignorelist lastModified) st0 entries = (st, Status.crashed) ∧
      Event.prehook ∈ st.events ∧ Event.posthook ∉ st.events := by
  induction entries generalizing st0 with
  | nil =>
    obtain ⟨e, he, _⟩ := h
    simp [visited] at he
  | cons e rest ih =>
    obtain ⟨e', he', hd', hb'⟩ := h
    cases hd : isDirty w ignorelist lastModified e with
    | true =>
      have hw := walkFn_dirty w b ignorelist lastModified hc st0 e hd
      have hpost1 : Event.posthook ∉
          st0.events ++ (if st0.modified then [] else [Event.prehook]) ++ [Event.build e.path] := by
        intro hm
        simp only [List.mem_append, List.mem_singleton] at hm
        rcases hm with (hm | hm) | hm
        · exact hpost hm
        · split at hm <;> simp at hm
        · exact absurd hm (by simp)
      have hpre1 : Event.prehook ∈
          st0.events ++ (if st0.modified then [] else [Event.prehook]) ++ [Event.build e.path] := by
        by_cases hm : st0.modified = true
        · simp [hpre hm]
        · simp [hm]
      cases hbe : build b e.path with
      | crashed =>
        refine ⟨⟨true, st0.events ++ (if st0.modified then [] else [Event.prehook])
          ++ [Event.build e.path]⟩, ?_, hpre1, hpost1⟩
        rw [walk, hw, hbe]
      | failed err =>
        exfalso
        have hv : visited w b ignorelist lastModified (e :: rest) = [e] := by
          simp [visited, hd, hbe]
        rw [hv] at he'
        simp only [List.mem_singleton] at he'
        subst he'
        rw [hbe] at hb'
        exact absurd hb' (by simp)
      | done =>
        have hv : visited w b ignorelist lastModified (e :: rest)
            = e :: visited w b ignorelist lastModified rest := by
          simp [visited, hbe]
        rw [hv] at he'
        have hmem : e' ∈ visited w b ignorelist lastModified rest := by
          rcases List.mem_cons.1 he' with h1 | h1
          · subst h1
            rw [hbe] at hb'
            exact absurd hb' (by simp)
          · exact h1
        obtain ⟨st, h1, h2, h3⟩ := ih
          ⟨true, st0.events ++ (if st0.modified then [] else [Event.prehook])
            ++ [Event.build e.path]⟩ hpost1 (fun _ => hpre1) ⟨e', hmem, hd', hb'⟩
        refine ⟨st, ?_, h2, h3⟩
        rw [walk, hw, hbe]
        exact h1
    | false =>
      obtain ⟨evs, hevs, hw⟩ := walkFn_clean w b ignorelist lastModified hc st0 e hd
      have hv : visited w b ignorelist lastModified (e :: rest)
          = e :: visited w b ignorelist lastModified rest := by
        simp [visited, hd]
      rw [hv] at he'
      have hmem : e' ∈ visited w b ignorelist lastModified rest := by
        rcases List.mem_cons.1 he' with h1 | h1
        · subst h1
          rw [hd] at hd'
          exact absurd hd' (by simp)
        · exact h1
      have hno : ∀ ev, ev = Event.prehook ∨ ev = Event.posthook → ev ∉ evs := by
        intro ev hev hm
        have : ev ∈ withoutMkdir evs := by
          rcases hev with h1 | h1 <;> (subst h1; simp [withoutMkdir, hm])
        rw [hevs] at this
        simp at this
      obtain ⟨st, h1, h2, h3⟩ := ih ⟨st0.modified, st0.events ++ evs⟩
        (by
          intro hm
          rcases List.mem_append.1 hm with hm | hm
          · exact hpost hm
          · exact hno _ (Or.inr rfl) hm)
        (fun hm => List.mem_append_left _ (hpre hm)) ⟨e', hmem, hd', hb'⟩
      refine ⟨st, ?_, h2, h3⟩
      rw [walk, hw]
      exact h1
/-- C13: a build that panics ends the program inside the walk, after the
prehook, and the posthook is never run.  In the world whose one document `a.md`
is the text `{{}}`, the expansion of the document panics (the read of `m[0]`),
so does its build; the file is dirty, `D` is not empty, and the one cycle of
`buildAll` makes the publish directory, runs the prehook, starts the build of
`a.md` and ends there: there is no posthook.  So it is in every cycle in which
the build of a dirty file the walk visits panics.  In the cycles in which no
build panics (and no pattern of the ignore list fails to compile) the hooks are
as claimed: none when `D` is empty; else the prehook once, before the builds,
which are those of `D`, and the posthook once, as the last event; and so in
every cycle of watch mode. -/
theorem posthook_skipped_after_panic :
    expandDocument emptyMacroWorld (renderN emptyMacroWorld 1) "a.md".toList []
      = Outcome.panic ∧
    (∀ (n : Nat) (vars : Vars) (rest : Builders),
      build (pipelines emptyMacroWorld (n + 1) vars rest) "a.md".toList = Status.crashed) ∧
    dirtyFiles emptyMacroWorld (pipelines emptyMacroWorld 1 [] allDone)
      (loadIgnore emptyMacroWorld) 0 oneDocument = ["a.md".toList] ∧
    (walk (walkFn emptyMacroWorld (pipelines emptyMacroWorld 1 [] allDone)
        (loadIgnore emptyMacroWorld) 0)
      ⟨false, [Event.mkdir emptyMacroWorld.pubdir]⟩ oneDocument).1.events
      = [Event.mkdir ".pub".toList, Event.prehook, Event.build "a.md".toList] ∧
    (walk (walkFn emptyMacroWorld (pipelines emptyMacroWorld 1 [] allDone)
        (loadIgnore emptyMacroWorld) 0)
      ⟨false, [Event.mkdir emptyMacroWorld.pubdir]⟩ oneDocument).2 = Status.crashed ∧
    buildAll emptyMacroWorld (pipelines emptyMacroWorld 1 [] allDone) oneDocument = none ∧
    (∀ (w : World) (b : Builders) (ignorelist : List Str) (lastModified : Int)
      (entries : List WalkEntry),
      (∀ p ∈ ignorelist, (w.globCompile p).isSome = true) →
      (∃ e ∈ visited w b ignorelist lastModified entries,
        isDirty w ignorelist lastModified e = true ∧ build b e.path = Status.crashed) →
      buildCycle w b ignorelist lastModified false entries = none ∧
      ∃ st, walk (walkFn w b ignorelist lastModified) ⟨false, [Event.mkdir w.pubdir]⟩ entries
          = (st, Status.crashed) ∧
        Event.prehook ∈ st.events ∧ Event.posthook ∉ st.events) ∧
    (∀ (w : World) (b : Builders) (ignorelist : List Str) (lastModified : Int)
      (entries : List WalkEntry),
      (∀ p ∈ ignorelist, (w.globCompile p).isSome = true) →
      (∀ path, build b path ≠ Status.crashed) →
      ∃ events, buildCycle w b ignorelist lastModified false entries = some (events, false) ∧
        withoutMkdir events = expectedEvents (dirtyFiles w b ignorelist lastModified entries) ∧
        (dirtyFiles w b ignorelist lastModified entries = [] →
          Event.prehook ∉ events ∧ Event.posthook ∉ events) ∧
        (dirtyFiles w b ignorelist lastModified entries ≠ [] →
          events.count Event.prehook = 1 ∧ events.count Event.posthook = 1 ∧
          events.getLast? = some Event.posthook)) ∧
    (∀ (w : World) (ignorelist : List Str) (lastModified : Int) (snaps : List Snapshot),
      (∀ p ∈ ignorelist, (w.globCompile p).isSome = true) →
      (∀ c ∈ snaps, ∀ path, build c.builders path ≠ Status.crashed) →
      (watchCycles w ignorelist lastModified false snaps).length = snaps.length ∧
      (watchCycles w ignorelist lastModified false snaps).map withoutMkdir
        = expectedCycles w ignorelist lastModified snaps) := by
  refine ⟨by decide, ?_, by decide, by decide, by decide, by decide, ?_, ?_, ?_⟩
  · intro n vars rest
    rfl
  · intro w b ignorelist lastModified entries hc h
    obtain ⟨st, h1, h2, h3⟩ := walk_panics w b ignorelist lastModified hc entries
      ⟨false, [Event.mkdir w.pubdir]⟩ (by simp) (by simp) h
    refine ⟨?_, st, h1, h2, h3⟩
    unfold buildCycle
    simp only [h1]
  · intro w b ignorelist lastModified entries hc hb
    exact (hooks_once_without_panic w ignorelist hc).1 b lastModified entries hb
  · intro w ignorelist lastModified snaps hc hb
    exact (hooks_once_without_panic w ignorelist hc).2 lastModified snaps hb

/-- A text of spaces has no field. -/
theorem fields_of_spaces (s : Str) (h : ∀ c ∈ s, isSpace c = true) : fields s = [] := by
  unfold fields
  induction s with
  | nil => rfl
  | cons c cs ih =>
    have hc : isSpace c = true := h c (by simp)
    have hcs : ∀ x ∈ cs, isSpace x = true := fun x hx => h x (List.mem_cons_of_mem _ hx)
    simp [fieldsAux, hc, ih hcs]

/-- C21: on the text `{{}}`, and on `a {{   }} b`, each open delimiter is
followed by a close delimiter and `render` returns neither an output nor an
error: the macro body has no field, `strings.Fields` gives the empty slice, and
the read of `m[0]` in the first `case` panics (index out of range).  So it is
for every text whose first macro has an empty body or a body of white space,
in every world and at every depth.  The text `}}{{x}}`, in which the open
delimiter is followed by a close delimiter too, panics as well, at the slice
of the macro body. -/
theorem render_empty_body_panics :
    fields [] = [] ∧ fields "   ".toList = [] ∧
    (delimClose <:+: ("\x7b\x7b\x7d\x7d".toList).drop 2) ∧
    (delimClose <:+: ("a \x7b\x7b   \x7d\x7d b".toList).drop 4) ∧
    (∀ (w : World) (rl : Vars → List Str → Vars × Outcome) (vars : Vars) (deep : Int),
      render w rl "\x7b\x7b\x7d\x7d".toList vars deep = (vars, Outcome.panic)) ∧
    (∀ (w : World) (rl : Vars → List Str → Vars × Outcome) (vars : Vars) (deep : Int),
      render w rl "a \x7b\x7b   \x7d\x7d b".toList vars deep = (vars, Outcome.panic)) ∧
    (∀ (w : World) (rl : Vars → List Str → Vars × Outcome) (s : Str) (vars : Vars) (deep : Int)
      (from_ to_ : Nat), index s delimOpen = some from_ → index s delimClose = some to_ →
      from_ + 2 ≤ to_ → (∀ c ∈ (s.take to_).drop (from_ + 2), isSpace c = true) →
      render w rl s vars deep = (vars, Outcome.panic)) ∧
    (delimClose <:+: ("\x7d\x7d\x7b\x7bx\x7d\x7d".toList).drop 4) ∧
    (∀ (w : World) (rl : Vars → List Str → Vars × Outcome) (vars : Vars) (deep : Int),
      render w rl "\x7d\x7d\x7b\x7bx\x7d\x7d".toList vars deep = (vars, Outcome.panic)) := by
  refine ⟨by decide, by decide, by decide, by decide, ?_, ?_, ?_, by decide, ?_⟩
  · intro w rl vars deep
    rfl
  · intro w rl vars deep
    rfl
  rotate_left
  · intro w rl vars deep
    rfl
  · intro w rl s vars deep from_ to_ ho hc hle hsp
    have hlt : ¬ to_ < from_ + delimOpen.length := by
      simp only [delimOpen, List.length_cons, List.length_nil]; omega
    have hf : fields ((s.take to_).drop (from_ + delimOpen.length)) = [] :=
      fields_of_spaces _ hsp
    rw [render, renderAt, renderLoop]
    simp only [ho, hc, hlt, if_false, hf]

end Zazzy
